import Mathlib

/-!
Verification of the deterministic ingestion-and-retrieval pipeline of the
chatbot-studio backend.

The development shallowly embeds the pure cores of
`src/services/ingestion/canonicalize.ts`, `chunking.ts`, `chunk-id.ts`,
the staging / finalization decision logic of `ingestion-worker.ts`, and the
retrieval-and-answer-gate logic of `chat.service.ts`.

Strings are modelled as `List Char` (JavaScript strings are sequences of
UTF-16 units; all inputs we reason about stay within the code points where
the two views agree one-to-one).  Thrown JavaScript errors are modelled as
`Except.error`.
-/

namespace ChatbotStudio

/-! ## Canonicalizer (canonicalize.ts)

Each regex replacement pass of `canonicalizeText` is embedded as a total
function on `List Char`, in the order the source applies them.
-/

/-- Character class of `CONTROL_CHARS` in canonicalize.ts:
range 00-08, 0B, 0C, 0E-1F and 7F. -/
def isControlChar (c : Char) : Bool :=
  c.toNat ≤ 8 || c.toNat == 11 || c.toNat == 12 ||
    (14 ≤ c.toNat && c.toNat ≤ 31) || c.toNat == 127

/-- The non-breaking space U+00A0 targeted by the `NBSP` regex. -/
def nbspChar : Char := Char.ofNat 160

/-- Character class of the regexes `MULTI_SPACES` and
`TRAILING_SPACE_PER_LINE`, namely space and horizontal tab. -/
def isSpaceTab (c : Char) : Bool := c == ' ' || c == '\t'

/-- The whitespace set of JavaScript String.prototype.trim
(WhiteSpace and LineTerminator code points). -/
def isJsWhitespace (c : Char) : Bool :=
  c == ' ' || c == '\t' || c == '\n' || c.toNat == 11 || c.toNat == 12 ||
    c == '\r' || c.toNat == 160 || c.toNat == 0x1680 ||
    (0x2000 ≤ c.toNat && c.toNat ≤ 0x200A) || c.toNat == 0x2028 ||
    c.toNat == 0x2029 || c.toNat == 0x202F || c.toNat == 0x205F ||
    c.toNat == 0x3000 || c.toNat == 0xFEFF

/-- First line-break pass: `text.replace(/\r\n/g, "\n")`.  The regex engine
scans left to right and resumes after each replaced match. -/
def replaceCRLF : List Char → List Char
  | [] => []
  | [c] => [c]
  | a :: b :: rest =>
      if a == '\r' && b == '\n' then '\n' :: replaceCRLF rest
      else a :: replaceCRLF (b :: rest)

/-- Global replacement of one fixed character by a fixed string, modelling
the single-character regexes of canonicalize.ts
(`/\r/g`, `NBSP`, `/\t/g` and the five ligature regexes). -/
def replaceChar (target : Char) (repl : List Char) : List Char → List Char
  | [] => []
  | c :: rest =>
      (if c == target then repl else [c]) ++ replaceChar target repl rest

/-- `text.replace(CONTROL_CHARS, "")`: removing every control character. -/
def removeControlChars (s : List Char) : List Char :=
  s.filter (fun c => !isControlChar c)

/-- The five sequential OCR-ligature replacements of `LIGATURES`,
in source order. -/
def applyLigatures (s : List Char) : List Char :=
  replaceChar 'ﬄ' ['f', 'f', 'l']
    (replaceChar 'ﬃ' ['f', 'f', 'i']
      (replaceChar 'ﬂ' ['f', 'l']
        (replaceChar 'ﬁ' ['f', 'i']
          (replaceChar 'ﬀ' ['f', 'f'] s))))

/-- The letter class of the de-hyphenation regex.  The source uses the
Unicode property class in `/(\p{L})-\n(\p{L})/gu`; the model uses the ASCII
letters, a subset that is exact on all inputs considered here. -/
def isWordLetter (c : Char) : Bool := c.isAlpha

/-- De-hyphenation pass `text.replace(/(\p{L})-\n(\p{L})/gu, "$1$2")`.
A global regex replace finds non-overlapping matches left to right and
resumes scanning after the end of each match, which this recursion mirrors:
after rewriting a match both captured letters are emitted and scanning
continues after the second letter. -/
def dehyphenate : List Char → List Char
  | a :: b :: c :: d :: rest =>
      if isWordLetter a && b == '-' && c == '\n' && isWordLetter d then
        a :: d :: dehyphenate rest
      else a :: dehyphenate (b :: c :: d :: rest)
  | c :: rest => c :: dehyphenate rest
  | [] => []

/-- Removes every space that immediately follows another space, so each
maximal run of spaces is reduced to a single space. -/
def squeezeSpaces : List Char → List Char
  | [] => []
  | [c] => [c]
  | a :: b :: rest =>
      if a == ' ' && b == ' ' then squeezeSpaces (b :: rest)
      else a :: squeezeSpaces (b :: rest)

/-- `text.replace(MULTI_SPACES, " ")`: every maximal run of spaces and tabs
becomes one single space.  Modelled by first mapping each space or tab to a
space and then squeezing runs of spaces. -/
def collapseSpaces (s : List Char) : List Char :=
  squeezeSpaces (s.map (fun c => if isSpaceTab c then ' ' else c))

/-- True when the list, after skipping leading spaces and tabs, is empty or
starts with a newline: a run of spaces or tabs starting here would be
matched by the multiline anchor of `TRAILING_SPACE_PER_LINE`. -/
def lineEndsAfterSpaces (l : List Char) : Bool :=
  match l.dropWhile isSpaceTab with
  | [] => true
  | d :: _ => d == '\n'

/-- `text.replace(TRAILING_SPACE_PER_LINE, "")` with the regex
`/[ \t]+$/gm`: a space or tab is removed exactly when every character
between it and the next newline (or the end of the text) is also a space or
tab.  Line terminators other than the newline cannot occur at this stage of
the pipeline, every carriage return having been rewritten earlier. -/
def stripTrailingPerLine : List Char → List Char
  | [] => []
  | c :: rest =>
      if isSpaceTab c && lineEndsAfterSpaces rest then stripTrailingPerLine rest
      else c :: stripTrailingPerLine rest

/-- `text.replace(MULTI_BLANK_LINES, "\n\n")` with the regex `/\n{3,}/g`:
every maximal run of three or more newlines collapses to exactly two. -/
def collapseBlankLines : List Char → List Char
  | a :: b :: c :: rest =>
      if a == '\n' && b == '\n' && c == '\n' then
        collapseBlankLines (b :: c :: rest)
      else a :: collapseBlankLines (b :: c :: rest)
  | c :: rest => c :: collapseBlankLines rest
  | [] => []

/-- Removes the maximal suffix of characters satisfying `p`. -/
def dropTrailing (p : Char → Bool) : List Char → List Char
  | [] => []
  | c :: rest =>
      match dropTrailing p rest with
      | [] => if p c then [] else [c]
      | r => c :: r

/-- JavaScript String.prototype.trim: removes leading and trailing
whitespace and line terminators. -/
def jsTrim (s : List Char) : List Char :=
  dropTrailing isJsWhitespace (s.dropWhile isJsWhitespace)

/-- `canonicalizeText` of canonicalize.ts: the full normalization pipeline,
applied in source order.  (`raw ?? ""` cannot be observed on `List Char`.) -/
def canonicalizeText (raw : List Char) : List Char :=
  jsTrim
    (collapseBlankLines
      (stripTrailingPerLine
        (collapseSpaces
          (dehyphenate
            (applyLigatures
              (removeControlChars
                (replaceChar '\t' [' ']
                  (replaceChar nbspChar [' ']
                    (replaceChar '\r' ['\n']
                      (replaceCRLF raw))))))))))

/-! ## Chunker (chunking.ts)

`chunkTextWithOffsets` walks the canonical text with a cursor, cutting each
window at a boundary, trimming whitespace while shifting the recorded
offsets, and advancing the cursor by at least one position per iteration.
-/

/-- An offset-anchored chunk, as in chunking.ts. -/
structure AnchoredChunk where
  startOffset : Nat
  endOffset : Nat
  text : List Char
deriving DecidableEq, Repr

/-- `text.slice(a, b)` for the in-range indices used by the chunker. -/
def sliceList (s : List Char) (a b : Nat) : List Char :=
  (s.drop a).take (b - a)

/-- `text.charCodeAt(i)`; out-of-range reads yield NaN in JavaScript, which
compares unequal to every code, modelled by the code 0. -/
def charCodeAt (s : List Char) (i : Nat) : Nat :=
  match s.get? i with
  | some c => c.toNat
  | none => 0

/-- `isSkippable` of chunking.ts: space, newline, carriage return, tab. -/
def isSkippable (code : Nat) : Bool :=
  code == 32 || code == 10 || code == 13 || code == 9

/-- Index of the last occurrence of `pat` in `s`
(JavaScript String.prototype.lastIndexOf). -/
def lastIndexOfPat (pat s : List Char) : Option Nat :=
  ((List.range (s.length + 1)).filter
    (fun i => List.isPrefixOf pat (s.drop i))).getLast?

/-- `findLastBoundary` of chunking.ts: the end position (relative to the
window) of the last paragraph break, else the last newline, else the last
space. -/
def findLastBoundary (window : List Char) : Option Nat :=
  match lastIndexOfPat ['\n', '\n'] window with
  | some idx => some (idx + 2)
  | none =>
      match lastIndexOfPat ['\n'] window with
      | some idx => some (idx + 1)
      | none =>
          match lastIndexOfPat [' '] window with
          | some idx => some (idx + 1)
          | none => none

/-- The cut position `end` of one loop iteration: the hard window end, or a
clean boundary found at or after 60% of the chunk size.  The source computes
`Math.floor(chunkSize * 0.6)`; for every chunk size admitted by the
validation (in particular the constant 1200 used by the worker) the
double-precision product rounds to the exact value, so the integer
expression below coincides with it. -/
def chunkEnd (text : List Char) (chunkSize start : Nat) : Nat :=
  let len := text.length
  let hardEnd := min (start + chunkSize) len
  if hardEnd < len then
    let minEnd := min len (start + chunkSize * 6 / 10)
    match findLastBoundary (sliceList text minEnd hardEnd) with
    | some breakAt => minEnd + breakAt
    | none => hardEnd
  else hardEnd

/-- The loop `while (trimmedStart < trimmedEnd && isSkippable(...))
trimmedStart += 1`: the first index at or after `s` (bounded by `e`) whose
character is not skippable. -/
def trimmedStartIdx (text : List Char) (s e : Nat) : Nat :=
  s + ((sliceList text s e).takeWhile (fun c => isSkippable c.toNat)).length

/-- The loop `while (trimmedEnd > trimmedStart && isSkippable(...))
trimmedEnd -= 1`: the end index after removing the maximal skippable
suffix of the window `[s, e)`. -/
def trimmedEndIdx (text : List Char) (s e : Nat) : Nat :=
  e - ((sliceList text s e).reverse.takeWhile (fun c => isSkippable c.toNat)).length

/-- The chunk list contributed by one loop iteration: the trimmed window,
pushed only when non-empty after trimming.  The recorded text is the exact
slice between the trimmed offsets, as in the source push. -/
def chunkPiece (text : List Char) (start e : Nat) : List AnchoredChunk :=
  if trimmedStartIdx text start e < trimmedEndIdx text (trimmedStartIdx text start e) e then
    [{ startOffset := trimmedStartIdx text start e,
       endOffset := trimmedEndIdx text (trimmedStartIdx text start e) e,
       text := sliceList text (trimmedStartIdx text start e)
                 (trimmedEndIdx text (trimmedStartIdx text start e) e) }]
  else []

/-- The cursor update at the end of one iteration:
`nextStart = Math.max(0, end - chunkOverlap); start = nextStart > start ?
nextStart : start + 1` (truncated Nat subtraction is exactly the clamp). -/
def chunkNext (e chunkOverlap start : Nat) : Nat :=
  let nextStart := e - chunkOverlap
  if nextStart > start then nextStart else start + 1

theorem chunkNext_gt (e co start : Nat) : start < chunkNext e co start := by
  show start < if e - co > start then e - co else start + 1
  split <;> omega

/-- The main `while (start < len)` loop of `chunkTextWithOffsets`.
Termination rests on the cursor strictly advancing every iteration
(`chunkNext_gt`), the guarantee claimed by the source comment. -/
def chunkLoop (text : List Char) (chunkSize chunkOverlap start : Nat) :
    List AnchoredChunk :=
  if h : start < text.length then
    if text.length ≤ chunkEnd text chunkSize start then
      chunkPiece text start (chunkEnd text chunkSize start)
    else
      chunkPiece text start (chunkEnd text chunkSize start) ++
        chunkLoop text chunkSize chunkOverlap
          (chunkNext (chunkEnd text chunkSize start) chunkOverlap start)
  else []
termination_by text.length - start
decreasing_by
  exact Nat.sub_lt_sub_left h (chunkNext_gt _ _ _)

/-- `chunkTextWithOffsets` of chunking.ts.  The two integrality checks of
the source hold by the Nat typing; thrown errors are `Except.error`. -/
def chunkTextWithOffsets (canonicalText : List Char)
    (chunkSize chunkOverlap : Nat) : Except String (List AnchoredChunk) :=
  if chunkSize < 100 then Except.error "chunkSize invalid"
  else if chunkSize ≤ chunkOverlap then Except.error "chunkOverlap invalid"
  else if jsTrim canonicalText = [] then Except.error "canonicalText empty"
  else
    match chunkLoop canonicalText chunkSize chunkOverlap 0 with
    | [] => Except.error "No chunks produced"
    | chunks => Except.ok chunks

deriving instance DecidableEq for Except

/-! ## Chunk identity (chunk-id.ts) and staging (ingestion-worker.ts)

chunk-id.ts imports `sha256Hex` from hash.ts, a repository file not present
under src.  Per the spec it is a pure deterministic digest; every theorem
below is proved for an arbitrary function `hash : String → String`, which
subsumes the real digest.
-/

/-- `computeSourceRevision`: the digest of the canonical text. -/
def computeSourceRevision (hash : String → String) (canonicalText : String) :
    String :=
  hash canonicalText

/-- One extracted PDF page as consumed by `computePdfSourceRevision`. -/
structure PdfPage where
  pageNo : Nat
  canonicalText : String
deriving DecidableEq, Repr

/-- The serialization of one page inside the revision payload. -/
def pdfPagePayload (p : PdfPage) : String :=
  "page:" ++ toString p.pageNo ++ "\n" ++ p.canonicalText

instance : DecidableRel (fun a b : PdfPage => a.pageNo ≤ b.pageNo) :=
  fun a b => Nat.decLe a.pageNo b.pageNo

instance : IsTotal PdfPage (fun a b => a.pageNo ≤ b.pageNo) :=
  ⟨fun a b => Nat.le_total a.pageNo b.pageNo⟩

instance : IsTrans PdfPage (fun a b => a.pageNo ≤ b.pageNo) :=
  ⟨fun _ _ _ hab hbc => Nat.le_trans hab hbc⟩

instance : IsAntisymm PdfPage (fun a b : PdfPage => a.pageNo < b.pageNo) :=
  ⟨fun _ _ hab hba => absurd hba (Nat.lt_asymm hab)⟩

/-- `pages.slice().sort((a, b) => a.pageNo - b.pageNo)`: a sort by page
number.  On the distinct page numbers required of PDF pages every
comparison sort produces the same list, so the model may fix one. -/
def sortPagesByNo (pages : List PdfPage) : List PdfPage :=
  List.insertionSort (fun a b => a.pageNo ≤ b.pageNo) pages

/-- `computePdfSourceRevision` of chunk-id.ts: pages sorted by page number,
serialized and joined by the fixed separator, then hashed. -/
def computePdfSourceRevision (hash : String → String) (pages : List PdfPage) :
    String :=
  hash (String.intercalate "\n\n---\n\n" ((sortPagesByNo pages).map pdfPagePayload))

/-- `computeChunkId` of chunk-id.ts: the digest of the newline-joined field
list (`pageNo ?? ""` renders an absent page number as the empty string). -/
def computeChunkId (hash : String → String) (sourceId sourceRevision : String)
    (pageNo : Option Nat) (chunk : AnchoredChunk) : String :=
  hash (String.intercalate "\n"
    ["source_id:" ++ sourceId,
     "source_revision:" ++ sourceRevision,
     "page_no:" ++ (match pageNo with | some n => toString n | none => ""),
     "start_offset:" ++ toString chunk.startOffset,
     "end_offset:" ++ toString chunk.endOffset,
     "text:",
     chunk.text.asString])

/-- The chunking constants of ingestion-worker.ts. -/
def CHUNK_SIZE : Nat := 1200

/-- The overlap constant of ingestion-worker.ts. -/
def CHUNK_OVERLAP : Nat := 200

/-- Duplicate removal keeping first occurrences: the effect of
`createMany({..., skipDuplicates: true})` under the uniqueness constraint
on (jobId, operation, chunkId) within one staging transaction. -/
def dedupSeen (seen : List String) : List String → List String
  | [] => []
  | x :: rest =>
      if x ∈ seen then dedupSeen seen rest
      else x :: dedupSeen (x :: seen) rest

/-- Duplicate removal keeping first occurrences. -/
def dedupKeepFirst (l : List String) : List String := dedupSeen [] l

/-- The outbox-visible outcome of one `stageTextSource` transaction. -/
structure StageResult where
  sourceRevision : String
  deleteChunkIds : List String
  upsertChunkIds : List String
deriving DecidableEq, Repr

/-- `IngestionWorker.stageTextSource`, restricted to the data that decides
the enqueued outbox rows: canonicalize, compute the source revision, chunk,
derive the content-addressed chunk ids; enqueue one DELETE per previously
active chunk exactly when the revision changed and active chunks exist
(`priorRevision !== sourceRevision && activeChunks.length > 0`), and one
UPSERT per new chunk id.  A thrown staging error aborts the transaction and
is modelled as `Except.error`. -/
def stageTextSource (hash : String → String) (sourceId : String)
    (content : List Char) (priorRevision : Option String)
    (activeChunkIds : List String) : Except String StageResult :=
  match chunkTextWithOffsets (canonicalizeText content) CHUNK_SIZE CHUNK_OVERLAP with
  | Except.error e => Except.error e
  | Except.ok anchoredChunks =>
      Except.ok
        { sourceRevision :=
            computeSourceRevision hash (canonicalizeText content).asString
          deleteChunkIds :=
            if priorRevision ≠
                  some (computeSourceRevision hash (canonicalizeText content).asString) ∧
                activeChunkIds ≠ [] then
              activeChunkIds
            else []
          upsertChunkIds :=
            dedupKeepFirst (anchoredChunks.map (fun ck =>
              computeChunkId hash sourceId
                (computeSourceRevision hash (canonicalizeText content).asString)
                none ck)) }

/-! ## Job finalization (ingestion-worker.ts, finalizeJobsIfPossible)

For one RUNNING job with at least one outbox row, the finalizer counts its
outbox rows by status and attempt count and either leaves the job RUNNING
(by continuing the loop) or writes the terminal status.
-/

/-- Status of a VectorOutbox row. -/
inductive OutboxStatus where
  | PENDING
  | RUNNING
  | FAILED
  | SUCCEEDED
deriving DecidableEq, Repr

/-- The job statuses reachable from RUNNING through the finalizer. -/
inductive JobStatus where
  | RUNNING
  | SUCCEEDED
  | PARTIAL_FAILED
deriving DecidableEq, Repr

/-- The fields of a VectorOutbox row the finalizer inspects. -/
structure VectorOutboxRow where
  status : OutboxStatus
  attemptCount : Nat
deriving DecidableEq, Repr

/-- The per-job decision of `finalizeJobsIfPossible` for a RUNNING job with
a non-empty outbox: count rows still PENDING or RUNNING (leave RUNNING),
else rows FAILED below `INGESTION_MAX_VECTOR_ATTEMPTS` (still retryable,
leave RUNNING), else finalize to PARTIAL_FAILED when FAILED-at-ceiling rows
remain and to SUCCEEDED otherwise. -/
def finalizeJobDecision (maxAttempts : Nat) (rows : List VectorOutboxRow) :
    JobStatus :=
  if 0 < rows.countP (fun r => r.status == OutboxStatus.PENDING ||
      r.status == OutboxStatus.RUNNING) then
    JobStatus.RUNNING
  else if 0 < rows.countP (fun r => r.status == OutboxStatus.FAILED &&
      decide (r.attemptCount < maxAttempts)) then
    JobStatus.RUNNING
  else if 0 < rows.countP (fun r => r.status == OutboxStatus.FAILED &&
      decide (maxAttempts ≤ r.attemptCount)) then
    JobStatus.PARTIAL_FAILED
  else JobStatus.SUCCEEDED

/-! ## Retrieval and answer gate (chat.service.ts)

The chat pipeline after reranking is embedded as a pure function of the
reranked candidate list and the (already JSON-parsed) model answer; LLM
calls appear as explicit inputs, and the Bool component of
`handleMessageAfterRerank` records whether the answer-generation call was
reached.  String lengths count code points where the source counts UTF-16
units; the two agree on all inputs considered here.
-/

/-- The metadata fields of a hydrated vector match that
`buildContextString` and `buildSourcesFromClaims` read. -/
structure ChunkMetadata where
  chunk_id : Option String
  title : Option String
  label : Option String
  filename : Option String
  sourceUrl : Option String
  canonical_url : Option String
  original_url : Option String
  uri : Option String
  page_no : Option Int
  start_offset : Option Int
  end_offset : Option Int
deriving DecidableEq, Repr

/-- A hydrated, scored candidate (`RankedContext` in chat.service.ts).
Scores only order candidates and never feed back into control flow here,
so the numeric type is immaterial. -/
structure RankedContext where
  id : String
  content : String
  metadata : ChunkMetadata
  score : Int
deriving DecidableEq, Repr

/-- A JavaScript truthiness chain `a || b || ... || dflt` over strings:
both absent and empty values fall through. -/
def firstTruthy : List (Option String) → String → String
  | [], dflt => dflt
  | some s :: rest, dflt => if s = "" then firstTruthy rest dflt else s
  | none :: rest, dflt => firstTruthy rest dflt

/-- Separator class of the rank-list split `text.split(/[, ]+/)`. -/
def isRankSeparator (c : Char) : Bool := c == ',' || c == ' '

/-- Tokenization underlying the rank-list split.  Splitting at every
separator rather than at separator runs only introduces extra empty
tokens, which parse to no integer and are filtered out, leaving the same
rank list as the source split. -/
def splitRankTokens (cur : List Char) : List Char → List (List Char)
  | [] => [cur.reverse]
  | c :: rest =>
      if isRankSeparator c then cur.reverse :: splitRankTokens [] rest
      else splitRankTokens (c :: cur) rest

/-- Value of a digit string. -/
def digitsVal (ds : List Char) : Nat :=
  ds.foldl (fun acc c => acc * 10 + (c.toNat - 48)) 0

/-- The digit prefix of a token, if any. -/
def parseDigits (t : List Char) : Option Nat :=
  match t.takeWhile Char.isDigit with
  | [] => none
  | ds => some (digitsVal ds)

/-- JavaScript `parseInt(v, 10)`: skip leading whitespace, read an optional
sign and then the maximal digit prefix; no digits means NaN (`none`).
Every non-NaN result is an integer, so the source filter
`Number.isInteger(n)` keeps exactly the `some` results. -/
def parseIntJs (t : List Char) : Option Int :=
  match t.dropWhile isJsWhitespace with
  | '-' :: rest => (parseDigits rest).map (fun n => -(n : Int))
  | '+' :: rest => (parseDigits rest).map (fun n => (n : Int))
  | other => (parseDigits other).map (fun n => (n : Int))

/-- The parsed rank list: split, parse, and keep integers between 1 and
the candidate count. -/
def parseRankIds (text : List Char) (len : Nat) : List Nat :=
  ((splitRankTokens [] text).filterMap parseIntJs).filterMap (fun n =>
    if 1 ≤ n ∧ n ≤ (len : Int) then some n.toNat else none)

/-- The reordering pass of `rerank`: for the i-th parsed rank `idx`, look
up `docs[idx - 1]` and re-emit it with score `docs.length - i`
(`d.id || unknown-idx` is the usual truthiness fallback). -/
def rerankOrdered (docs : List RankedContext) (ids : List Nat) :
    List RankedContext :=
  ids.enum.filterMap (fun p =>
    (docs.get? (p.2 - 1)).map (fun d =>
      { id := if d.id = "" then "unknown-" ++ toString p.2 else d.id
        content := d.content
        metadata := d.metadata
        score := (docs.length : Int) - (p.1 : Int) }))

/-- `ChatService.rerank`: empty input short-circuits to an empty list; a
failed LLM invocation is caught and rethrown (`Except.error` propagates);
a successful response is parsed, an unparsable rank list falls back to the
first five candidates in the original similarity order, and otherwise the
parsed order is applied. -/
def rerank (llmResult : Except String (List Char))
    (docs : List RankedContext) : Except String (List RankedContext) :=
  if docs.isEmpty then Except.ok []
  else
    match llmResult with
    | Except.error e => Except.error e
    | Except.ok text =>
        if (parseRankIds text docs.length).isEmpty then
          Except.ok (docs.take 5)
        else Except.ok (rerankOrdered docs (parseRankIds text docs.length))

/-- One claim of the structured model answer. -/
structure RagClaim where
  text : String
  supporting_chunk_ids : List String
deriving DecidableEq, Repr

/-- The structured model answer after JSON parsing. -/
structure RagJsonAnswer where
  claims : List RagClaim
  unknown : Bool
  reason : Option String
deriving DecidableEq, Repr

/-- One entry of the `sources` array of a `RagResponse`. -/
structure RagSource where
  chunk_id : String
  title : String
  canonical_url : Option String
  original_url : Option String
  uri : Option String
  page_no : Option Int
  start_offset : Option Int
  end_offset : Option Int
deriving DecidableEq, Repr

/-- The response shape returned to chat callers. -/
structure RagResponse where
  claims : List RagClaim
  unknown : Bool
  reason : Option String
  debug_id : String
  context_truncated : Bool
  sources : List RagSource
deriving DecidableEq, Repr

/-- `ChatService.buildUnknownResponse`. -/
def buildUnknownResponse (debugId : String) (reason : String)
    (contextTruncated : Bool) : RagResponse :=
  { claims := [], unknown := true, reason := some reason, debug_id := debugId,
    context_truncated := contextTruncated, sources := [] }

/-- `ChatService.applyHardGate` against the configured
RAG_MIN_HYDRATED_CHUNKS (the env module carrying the RAG settings is not
part of src, so the minimum is a parameter). -/
def applyHardGate (minHydratedChunks hydrated : Nat) : Bool × Option String :=
  if hydrated < minHydratedChunks then
    (false, some ("Nicht genug Kontext (min " ++ toString minHydratedChunks ++
      " Chunks)."))
  else (true, none)

/-- `String(meta.chunk_id ?? ctx.id)`: the nullish coalescing key under
which a context is addressed. -/
def ctxChunkId (ctx : RankedContext) : String :=
  ctx.metadata.chunk_id.getD ctx.id

/-- The context header of one candidate without the offsets line. -/
def ctxHeaderBase (i : Nat) (ctx : RankedContext) : String :=
  "### " ++ firstTruthy [ctx.metadata.title, ctx.metadata.label,
      ctx.metadata.filename, ctx.metadata.sourceUrl]
      ("Quelle " ++ toString (i + 1)) ++ "\n" ++
  "URL: " ++ firstTruthy [ctx.metadata.canonical_url, ctx.metadata.sourceUrl,
      ctx.metadata.uri, ctx.metadata.filename] "N/A" ++
  (match ctx.metadata.page_no with
   | some p => "\nSeite: " ++ toString p
   | none => "") ++ "\n" ++
  "Chunk: " ++ ctxChunkId ctx ++ "\n"

/-- The offsets line, printed only when both offsets are integers, with the
end offset that is actually rendered passed explicitly (the source builds
the line from the metadata offsets and, on truncation, replaces the end
offset by the effective one). -/
def offsetsLine (so eo : Option Int) (printedEnd : Int) : String :=
  match so, eo with
  | some a, some _ => "Offsets: " ++ toString a ++ "-" ++ toString printedEnd ++ "\n"
  | _, _ => ""

/-- `body.slice(0, n)`. -/
def stringTake (s : String) (n : Nat) : String := (s.data.take n).asString

/-- Result of `ChatService.buildContextString`; the source joins `parts`
with a blank line into the final context string. -/
structure ContextAssembly where
  parts : List String
  contextTruncated : Bool
  allowedChunkIds : List String
deriving DecidableEq, Repr

/-- Length of the header as first assembled from the metadata offsets
(the length the budget checks use; a truncation may later change the
printed end offset and thereby the final header length). -/
def ctxHeaderLen (i : Nat) (ctx : RankedContext) : Nat :=
  (ctxHeaderBase i ctx ++
    offsetsLine ctx.metadata.start_offset ctx.metadata.end_offset
      (ctx.metadata.end_offset.getD 0)).length

/-- The assembled part (final header plus body) for one accepted candidate
and whether its body was truncated to the given budget.  On truncation
with a known start offset the printed end offset becomes
`startOffset + body.length`. -/
def ctxPart (i : Nat) (ctx : RankedContext) (budgetForBody : Nat) :
    String × Bool :=
  if ctx.content.length > budgetForBody then
    (ctxHeaderBase i ctx ++
      offsetsLine ctx.metadata.start_offset ctx.metadata.end_offset
        ((ctx.metadata.start_offset.map
          (fun a => a + ((stringTake ctx.content budgetForBody).length : Int))).getD
          (ctx.metadata.end_offset.getD 0)) ++
      stringTake ctx.content budgetForBody, true)
  else
    (ctxHeaderBase i ctx ++
      offsetsLine ctx.metadata.start_offset ctx.metadata.end_offset
        (ctx.metadata.end_offset.getD 0) ++ ctx.content, false)

/-- The assembly loop of `buildContextString`: stop (marking truncation)
when the character budget is exhausted (`remaining <= 0`) or cannot hold
the next header plus 20 characters; otherwise cut the body to the
remaining budget, append the part, record the chunk id in the whitelist,
and continue with the budget reduced by the final header, the body and the
joining blank line. -/
def buildContextLoop (maxChars : Nat) : Nat → Nat → List RankedContext →
    ContextAssembly
  | _, _, [] => { parts := [], contextTruncated := false, allowedChunkIds := [] }
  | used, i, ctx :: rest =>
      if maxChars - used = 0 then
        { parts := [], contextTruncated := true, allowedChunkIds := [] }
      else if maxChars - used < ctxHeaderLen i ctx + 20 then
        { parts := [], contextTruncated := true, allowedChunkIds := [] }
      else
        { parts :=
            (ctxPart i ctx (maxChars - used - ctxHeaderLen i ctx - 2)).1 ::
              (buildContextLoop maxChars
                (used + (ctxPart i ctx (maxChars - used - ctxHeaderLen i ctx - 2)).1.length + 2)
                (i + 1) rest).parts
          contextTruncated :=
            (ctxPart i ctx (maxChars - used - ctxHeaderLen i ctx - 2)).2 ||
              (buildContextLoop maxChars
                (used + (ctxPart i ctx (maxChars - used - ctxHeaderLen i ctx - 2)).1.length + 2)
                (i + 1) rest).contextTruncated
          allowedChunkIds :=
            ctxChunkId ctx ::
              (buildContextLoop maxChars
                (used + (ctxPart i ctx (maxChars - used - ctxHeaderLen i ctx - 2)).1.length + 2)
                (i + 1) rest).allowedChunkIds }

/-- `ChatService.buildContextString` against the configured
RAG_MAX_CONTEXT_CHARS budget. -/
def buildContextString (maxChars : Nat) (contexts : List RankedContext) :
    ContextAssembly :=
  buildContextLoop maxChars 0 0 contexts

/-- The per-claim checks of `ragClaimSchema`: text of 1 to 2000 units and
at least one supporting id of 1 to 200 units each. -/
def claimSchemaOk (c : RagClaim) : Bool :=
  1 ≤ c.text.length && c.text.length ≤ 2000 &&
    !c.supporting_chunk_ids.isEmpty &&
    c.supporting_chunk_ids.all (fun id => 1 ≤ id.length && id.length ≤ 200)

/-- `ragJsonAnswerSchema` with its superRefine: all claims well-formed, an
optional reason of 1 to 500 units, and unknown=true exactly with an empty
claim list and a reason present, unknown=false with at least one claim. -/
def ragJsonAnswerSchemaOk (a : RagJsonAnswer) : Bool :=
  a.claims.all claimSchemaOk &&
    (match a.reason with
     | some r => 1 ≤ r.length && r.length ≤ 500
     | none => true) &&
    (if a.unknown then a.claims.isEmpty && a.reason.isSome
     else !a.claims.isEmpty)

/-- The claim loop of `validateAndGateJsonAnswer`: the first claim with no
supporting ids, or with a supporting id outside the whitelist, rejects the
answer with the corresponding reason. -/
def gateClaims (allowed : List String) : Nat → List RagClaim →
    Except String Unit
  | _, [] => Except.ok ()
  | idx, c :: rest =>
      if c.supporting_chunk_ids.isEmpty then
        Except.error ("Claim " ++ toString (idx + 1) ++
          " ohne supporting_chunk_ids.")
      else if c.supporting_chunk_ids.all (fun id => allowed.contains id) then
        gateClaims allowed (idx + 1) rest
      else Except.error "Claim referenziert nicht erlaubte Chunk-IDs."

/-- `ChatService.validateAndGateJsonAnswer`.  `JSON.parse` of the raw model
output is outside the embedded core; its outcome is the `Option` input
(`none` for a parse failure).  The remaining steps follow the source
order: schema validation, the unknown flag, then the claim checks. -/
def validateAndGateJsonAnswer (parsed : Option RagJsonAnswer)
    (allowedChunkIds : List String) : Except String RagJsonAnswer :=
  match parsed with
  | none => Except.error "Ungültiges JSON vom Modell."
  | some a =>
      if ragJsonAnswerSchemaOk a then
        if a.unknown then
          Except.error (a.reason.getD "Kontext deckt die Frage nicht ausreichend ab.")
        else
          match gateClaims allowedChunkIds 0 a.claims with
          | Except.error reason => Except.error reason
          | Except.ok _ => Except.ok a
      else Except.error "Antwortschema ungültig."

/-- The source entry built for one referenced chunk id. -/
def mkRagSource (chunkId : String) (ctx : RankedContext) : RagSource :=
  { chunk_id := chunkId
    title := firstTruthy [ctx.metadata.title, ctx.metadata.label,
      ctx.metadata.filename] "Unbekannt"
    canonical_url := ctx.metadata.canonical_url
    original_url := ctx.metadata.original_url
    uri := ctx.metadata.uri
    page_no := ctx.metadata.page_no
    start_offset := ctx.metadata.start_offset
    end_offset := ctx.metadata.end_offset }

/-- The `byChunkId` map of `buildSourcesFromClaims`: a JavaScript Map keeps
the last inserted value per key. -/
def byChunkIdLookup (contexts : List RankedContext) (key : String) :
    Option RankedContext :=
  (contexts.filter (fun c => ctxChunkId c == key)).getLast?

/-- The set of chunk ids referenced by the claims, in first-insertion
order (JavaScript Set semantics). -/
def claimedChunkIds (claims : List RagClaim) : List String :=
  dedupKeepFirst ((claims.map (fun c => c.supporting_chunk_ids)).flatten)

instance : DecidableRel (fun a b : RagSource => a.chunk_id ≤ b.chunk_id) :=
  fun a b => inferInstanceAs (Decidable (a.chunk_id ≤ b.chunk_id))

/-- `sources.sort((a, b) => a.chunk_id.localeCompare(b.chunk_id))`,
modelled by the code-point order on the ids (the ids are hex digests, on
which the locale order and the code-point order agree). -/
def sortSourcesByChunkId (sources : List RagSource) : List RagSource :=
  List.insertionSort (fun a b => a.chunk_id ≤ b.chunk_id) sources

/-- `ChatService.buildSourcesFromClaims`: resolve every chunk id referenced
by a claim through the context map (silently dropping unresolvable ids)
and sort the entries by chunk id. -/
def buildSourcesFromClaims (hydratedContexts : List RankedContext)
    (claims : List RagClaim) : List RagSource :=
  sortSourcesByChunkId
    ((claimedChunkIds claims).filterMap (fun id =>
      (byChunkIdLookup hydratedContexts id).map (fun ctx => mkRagSource id ctx)))

/-- `ChatService.buildVerifiedResponse` against the configured
RAG_MIN_SUPPORTED_CLAIMS: refuse below the minimum claim count, refuse on
a mismatch between resolved sources and the referenced-id set, and
otherwise release the verified answer. -/
def buildVerifiedResponse (minSupportedClaims : Nat) (debugId : String)
    (contextTruncated : Bool) (hydratedContexts : List RankedContext)
    (claims : List RagClaim) : RagResponse :=
  if claims.length < minSupportedClaims then
    buildUnknownResponse debugId
      ("Nicht genug belegbare Aussagen (min " ++ toString minSupportedClaims ++ ").")
      contextTruncated
  else if (buildSourcesFromClaims hydratedContexts claims).length ≠
      (claimedChunkIds claims).length then
    buildUnknownResponse debugId
      "Antwort referenziert Chunks, die nicht als Quellen auflösbar sind."
      contextTruncated
  else
    { claims := claims, unknown := false, reason := none, debug_id := debugId,
      context_truncated := contextTruncated,
      sources := buildSourcesFromClaims hydratedContexts claims }

/-- `ChatService.handleMessage` from the rerank result on: keep the top
five candidates, refuse before any answer-generation call when none remain
or the hard gate fails, and otherwise assemble the context, call the model
(the parsed outcome is the input `parsedAnswer`) and validate.  The Bool
component records whether the answer-generation call was reached. -/
def handleMessageAfterRerank (minHydratedChunks minSupportedClaims maxContextChars : Nat)
    (debugId : String) (reranked : List RankedContext)
    (parsedAnswer : Option RagJsonAnswer) : RagResponse × Bool :=
  if (reranked.take 5).isEmpty ∨
      (applyHardGate minHydratedChunks (reranked.take 5).length).1 = false then
    (buildUnknownResponse debugId
      ((applyHardGate minHydratedChunks (reranked.take 5).length).2.getD
        "Kontext deckt die Frage nicht ausreichend ab.") false, false)
  else
    match validateAndGateJsonAnswer parsedAnswer
        (buildContextString maxContextChars (reranked.take 5)).allowedChunkIds with
    | Except.ok data =>
        (buildVerifiedResponse minSupportedClaims debugId
          (buildContextString maxContextChars (reranked.take 5)).contextTruncated
          (reranked.take 5) data.claims, true)
    | Except.error reason =>
        (buildUnknownResponse debugId reason
          (buildContextString maxContextChars (reranked.take 5)).contextTruncated,
          true)

/-- A sample hydrated candidate used by the concrete witnesses. -/
def sampleMeta : ChunkMetadata :=
  { chunk_id := some "c1", title := some "Doc", label := none,
    filename := none, sourceUrl := none,
    canonical_url := some "https://example.com/doc", original_url := none,
    uri := some "https://example.com/doc", page_no := none,
    start_offset := some 0, end_offset := some 22 }

/-- A sample hydrated candidate used by the concrete witnesses. -/
def sampleCtx : RankedContext :=
  { id := "c1", content := "Example chunk content.", metadata := sampleMeta,
    score := 1 }

/-! ## Canonical-form predicates

Proof infrastructure for the idempotence analysis of the canonicalizer:
Boolean predicates describing the shape of canonicalized text.
-/

theorem bool_and_parts {a b : Bool} (h : (a && b) = true) :
    a = true ∧ b = true := by
  rw [Bool.and_eq_true] at h
  exact h

theorem bool_or_parts {a b : Bool} (h : (a || b) = true) :
    a = true ∨ b = true := by
  rw [Bool.or_eq_true] at h
  exact h

def noAdjSpaceTab : List Char → Bool
  | a :: b :: rest => !(isSpaceTab a && isSpaceTab b) && noAdjSpaceTab (b :: rest)
  | _ => true

def noSpaceBeforeNl : List Char → Bool
  | a :: b :: rest => !(isSpaceTab a && b == '\n') && noSpaceBeforeNl (b :: rest)
  | _ => true

def lastNotSpaceTab (s : List Char) : Bool :=
  match s.getLast? with
  | some c => !isSpaceTab c
  | none => true

def noTripleNl : List Char → Bool
  | a :: b :: c :: rest =>
      !(a == '\n' && b == '\n' && c == '\n') && noTripleNl (b :: c :: rest)
  | _ => true

theorem mem_replaceCRLF {c : Char} :
    ∀ (s : List Char), c ∈ replaceCRLF s → c ∈ s ∨ c = '\n' := by
  intro s
  induction s using replaceCRLF.induct with
  | case1 =>
      intro h
      simp [replaceCRLF] at h
  | case2 d =>
      intro h
      simp only [replaceCRLF] at h
      exact Or.inl h
  | case3 a b rest hcond ih =>
      intro h
      rw [replaceCRLF, if_pos hcond] at h
      rcases List.mem_cons.mp h with heq | hm
      · exact Or.inr heq
      · rcases ih hm with h1 | h2
        · exact Or.inl (List.mem_cons_of_mem _ (List.mem_cons_of_mem _ h1))
        · exact Or.inr h2
  | case4 a b rest hcond ih =>
      intro h
      rw [replaceCRLF, if_neg hcond] at h
      rcases List.mem_cons.mp h with heq | hm
      · exact Or.inl (heq ▸ List.mem_cons_self _ _)
      · rcases ih hm with h1 | h2
        · exact Or.inl (List.mem_cons_of_mem _ h1)
        · exact Or.inr h2

theorem mem_replaceChar {c t : Char} {repl : List Char} :
    ∀ (s : List Char), c ∈ replaceChar t repl s → c ∈ s ∨ c ∈ repl := by
  intro s
  induction s with
  | nil =>
      intro h
      simp [replaceChar] at h
  | cons a rest ih =>
      intro h
      rw [replaceChar] at h
      rcases List.mem_append.mp h with h1 | h2
      · by_cases ha : a == t
        · rw [if_pos ha] at h1
          exact Or.inr h1
        · rw [if_neg ha] at h1
          rw [List.mem_singleton] at h1
          exact Or.inl (h1 ▸ List.mem_cons_self _ _)
      · rcases ih h2 with h1 | h1
        · exact Or.inl (List.mem_cons_of_mem _ h1)
        · exact Or.inr h1

theorem mem_dehyphenate {x : Char} :
    ∀ (s : List Char), x ∈ dehyphenate s → x ∈ s := by
  intro s
  induction s using dehyphenate.induct with
  | case1 a b c d rest hcond ih =>
      intro h
      rw [dehyphenate, if_pos hcond] at h
      rcases List.mem_cons.mp h with heq | h
      · exact heq ▸ List.mem_cons_self _ _
      · rcases List.mem_cons.mp h with heq | h
        · exact heq ▸ (by simp)
        · have := ih h
          simp at this ⊢
          tauto
  | case2 a b c d rest hcond ih =>
      intro h
      rw [dehyphenate, if_neg hcond] at h
      rcases List.mem_cons.mp h with heq | h
      · exact heq ▸ List.mem_cons_self _ _
      · exact List.mem_cons_of_mem _ (ih h)
  | case3 c rest hshape ih =>
      intro h
      rw [dehyphenate.eq_2] at h
      · rcases List.mem_cons.mp h with heq | h
        · exact heq ▸ List.mem_cons_self _ _
        · exact List.mem_cons_of_mem _ (ih h)
      · exact hshape
  | case4 =>
      intro h
      simp [dehyphenate] at h

theorem mem_squeezeSpaces {c : Char} :
    ∀ (s : List Char), c ∈ squeezeSpaces s → c ∈ s := by
  intro s
  induction s using squeezeSpaces.induct with
  | case1 =>
      intro h
      simp [squeezeSpaces] at h
  | case2 d =>
      intro h
      simp only [squeezeSpaces] at h
      exact h
  | case3 a b rest hcond ih =>
      intro h
      rw [squeezeSpaces, if_pos hcond] at h
      exact List.mem_cons_of_mem _ (ih h)
  | case4 a b rest hcond ih =>
      intro h
      rw [squeezeSpaces, if_neg hcond] at h
      rcases List.mem_cons.mp h with heq | h
      · exact heq ▸ List.mem_cons_self _ _
      · exact List.mem_cons_of_mem _ (ih h)

theorem mem_collapseSpaces {c : Char} (s : List Char)
    (h : c ∈ collapseSpaces s) : c ∈ s ∨ c = ' ' := by
  unfold collapseSpaces at h
  have h2 := mem_squeezeSpaces _ h
  rcases List.mem_map.mp h2 with ⟨a, ha, haeq⟩
  by_cases hsp : isSpaceTab a
  · rw [if_pos hsp] at haeq
    exact Or.inr haeq.symm
  · rw [if_neg hsp] at haeq
    exact Or.inl (haeq ▸ ha)

theorem mem_stripTrailingPerLine {c : Char} :
    ∀ (s : List Char), c ∈ stripTrailingPerLine s → c ∈ s := by
  intro s
  induction s with
  | nil =>
      intro h
      simp [stripTrailingPerLine] at h
  | cons a rest ih =>
      intro h
      rw [stripTrailingPerLine] at h
      split at h
      · exact List.mem_cons_of_mem _ (ih h)
      · rcases List.mem_cons.mp h with heq | h
        · exact heq ▸ List.mem_cons_self _ _
        · exact List.mem_cons_of_mem _ (ih h)

theorem mem_collapseBlankLines {x : Char} :
    ∀ (s : List Char), x ∈ collapseBlankLines s → x ∈ s := by
  intro s
  induction s using collapseBlankLines.induct with
  | case1 a b c rest hcond ih =>
      intro h
      rw [collapseBlankLines, if_pos hcond] at h
      exact List.mem_cons_of_mem _ (ih h)
  | case2 a b c rest hcond ih =>
      intro h
      rw [collapseBlankLines, if_neg hcond] at h
      rcases List.mem_cons.mp h with heq | h
      · exact heq ▸ List.mem_cons_self _ _
      · exact List.mem_cons_of_mem _ (ih h)
  | case3 c rest hshape ih =>
      intro h
      rw [collapseBlankLines.eq_2] at h
      · rcases List.mem_cons.mp h with heq | h
        · exact heq ▸ List.mem_cons_self _ _
        · exact List.mem_cons_of_mem _ (ih h)
      · exact hshape
  | case4 =>
      intro h
      simp [collapseBlankLines] at h

theorem mem_dropTrailing {c : Char} {p : Char → Bool} :
    ∀ (s : List Char), c ∈ dropTrailing p s → c ∈ s := by
  intro s
  induction s with
  | nil =>
      intro h
      simp [dropTrailing] at h
  | cons a rest ih =>
      intro h
      rw [dropTrailing] at h
      split at h
      · split at h
        · simp at h
        · rw [List.mem_singleton] at h
          exact h ▸ List.mem_cons_self _ _
      · rcases List.mem_cons.mp h with heq | hm
        · exact heq ▸ List.mem_cons_self _ _
        · exact List.mem_cons_of_mem _ (ih hm)

theorem mem_dropWhileChar {c : Char} {p : Char → Bool} :
    ∀ (s : List Char), c ∈ s.dropWhile p → c ∈ s := by
  intro s
  induction s with
  | nil =>
      intro h
      simp at h
  | cons a rest ih =>
      intro h
      rw [List.dropWhile_cons] at h
      split at h
      · exact List.mem_cons_of_mem _ (ih h)
      · exact h

theorem mem_jsTrim {c : Char} (s : List Char) (h : c ∈ jsTrim s) : c ∈ s := by
  unfold jsTrim at h
  exact mem_dropWhileChar _ (mem_dropTrailing _ h)


theorem noAdjSpaceTab_tail {a : Char} {l : List Char}
    (h : noAdjSpaceTab (a :: l) = true) : noAdjSpaceTab l = true := by
  cases l with
  | nil => rfl
  | cons b r =>
      rw [noAdjSpaceTab] at h
      exact (bool_and_parts h).2

theorem noSpaceBeforeNl_tail {a : Char} {l : List Char}
    (h : noSpaceBeforeNl (a :: l) = true) : noSpaceBeforeNl l = true := by
  cases l with
  | nil => rfl
  | cons b r =>
      rw [noSpaceBeforeNl] at h
      exact (bool_and_parts h).2

theorem lastNotSpaceTab_tail {a : Char} {l : List Char}
    (h : lastNotSpaceTab (a :: l) = true) : lastNotSpaceTab l = true := by
  cases l with
  | nil => rfl
  | cons b r =>
      unfold lastNotSpaceTab at h ⊢
      rw [List.getLast?_cons_cons] at h
      exact h

theorem noTripleNl_tail {a : Char} {l : List Char}
    (h : noTripleNl (a :: l) = true) : noTripleNl l = true := by
  cases l with
  | nil => rfl
  | cons b r =>
      cases r with
      | nil => rfl
      | cons c t =>
          rw [noTripleNl] at h
          exact (bool_and_parts h).2

theorem noAdjSpaceTab_cons {a : Char} {l : List Char}
    (hhead : ∀ d, l.head? = some d → (isSpaceTab a && isSpaceTab d) = false)
    (hl : noAdjSpaceTab l = true) : noAdjSpaceTab (a :: l) = true := by
  cases l with
  | nil => rfl
  | cons b r =>
      rw [noAdjSpaceTab]
      rw [Bool.and_eq_true, hhead b rfl]
      exact ⟨rfl, hl⟩

theorem noSpaceBeforeNl_cons {a : Char} {l : List Char}
    (hhead : ∀ d, l.head? = some d → (isSpaceTab a && d == '\n') = false)
    (hl : noSpaceBeforeNl l = true) : noSpaceBeforeNl (a :: l) = true := by
  cases l with
  | nil => rfl
  | cons b r =>
      rw [noSpaceBeforeNl]
      rw [Bool.and_eq_true, hhead b rfl]
      exact ⟨rfl, hl⟩

theorem noTripleNl_cons {a : Char} {l : List Char}
    (h2 : ∀ d e r, l = d :: e :: r → (a == '\n' && d == '\n' && e == '\n') = false)
    (hl : noTripleNl l = true) : noTripleNl (a :: l) = true := by
  cases l with
  | nil => rfl
  | cons d t =>
      cases t with
      | nil => rfl
      | cons e r =>
          rw [noTripleNl]
          rw [Bool.and_eq_true, h2 d e r rfl]
          exact ⟨rfl, hl⟩

theorem isJsWhitespace_of_isSpaceTab {c : Char} (h : isSpaceTab c = true) :
    isJsWhitespace c = true := by
  unfold isSpaceTab at h
  rcases bool_or_parts h with h1 | h1
  · unfold isJsWhitespace
    rw [h1]
    rfl
  · unfold isJsWhitespace
    rw [h1]
    simp

theorem replaceCRLF_id : ∀ (s : List Char), '\r' ∉ s → replaceCRLF s = s := by
  intro s
  induction s using replaceCRLF.induct with
  | case1 =>
      intro _
      rfl
  | case2 d =>
      intro _
      rfl
  | case3 a b rest hcond ih =>
      intro h
      simp only [Bool.and_eq_true, beq_iff_eq] at hcond
      rw [hcond.1] at h
      simp at h
  | case4 a b rest hcond ih =>
      intro h
      rw [replaceCRLF, if_neg hcond,
        ih (fun hm => h (List.mem_cons_of_mem _ hm))]

theorem replaceChar_id {t : Char} {repl : List Char} :
    ∀ (s : List Char), t ∉ s → replaceChar t repl s = s := by
  intro s
  induction s with
  | nil =>
      intro _
      rfl
  | cons a rest ih =>
      intro h
      rw [replaceChar]
      have hat : (a == t) = false := by
        rw [beq_eq_false_iff_ne]
        intro he
        exact h (he ▸ List.mem_cons_self a rest)
      rw [hat]
      simp only [Bool.false_eq_true, if_false, List.singleton_append,
        List.cons.injEq, true_and]
      exact ih (fun hm => h (List.mem_cons_of_mem _ hm))

theorem removeControlChars_id (s : List Char)
    (h : ∀ c ∈ s, isControlChar c = false) : removeControlChars s = s := by
  unfold removeControlChars
  rw [List.filter_eq_self]
  intro a ha
  rw [h a ha]
  rfl

theorem applyLigatures_id (s : List Char) (h0 : 'ﬀ' ∉ s) (h1 : 'ﬁ' ∉ s)
    (h2 : 'ﬂ' ∉ s) (h3 : 'ﬃ' ∉ s) (h4 : 'ﬄ' ∉ s) : applyLigatures s = s := by
  unfold applyLigatures
  rw [replaceChar_id s h0, replaceChar_id s h1, replaceChar_id s h2,
    replaceChar_id s h3, replaceChar_id s h4]

theorem dehyphenate_id : ∀ (s : List Char), '-' ∉ s → dehyphenate s = s := by
  intro s
  induction s using dehyphenate.induct with
  | case1 a b c d rest hcond ih =>
      intro h
      exfalso
      apply h
      have hb : b = '-' := by
        simp only [Bool.and_eq_true, beq_iff_eq] at hcond
        exact hcond.1.1.2
      simp [hb]
  | case2 a b c d rest hcond ih =>
      intro h
      rw [dehyphenate, if_neg hcond,
        ih (fun hm => h (List.mem_cons_of_mem _ hm))]
  | case3 c rest hshape ih =>
      intro h
      rw [dehyphenate.eq_2]
      · rw [ih (fun hm => h (List.mem_cons_of_mem _ hm))]
      · exact hshape
  | case4 =>
      intro _
      rfl

theorem squeezeSpaces_id :
    ∀ (s : List Char), noAdjSpaceTab s = true → squeezeSpaces s = s := by
  intro s
  induction s using squeezeSpaces.induct with
  | case1 =>
      intro _
      rfl
  | case2 d =>
      intro _
      rfl
  | case3 a b rest hcond ih =>
      intro h
      exfalso
      simp only [Bool.and_eq_true, beq_iff_eq] at hcond
      rw [noAdjSpaceTab, hcond.1, hcond.2] at h
      simp [isSpaceTab] at h
  | case4 a b rest hcond ih =>
      intro h
      rw [squeezeSpaces, if_neg hcond, ih (noAdjSpaceTab_tail h)]

theorem collapseSpaces_id (s : List Char) (htab : '\t' ∉ s)
    (h : noAdjSpaceTab s = true) : collapseSpaces s = s := by
  unfold collapseSpaces
  have hmap : s.map (fun c => if isSpaceTab c then ' ' else c) = s.map id := by
    apply List.map_congr_left
    intro a ha
    by_cases hsp : isSpaceTab a = true
    · rw [if_pos hsp]
      unfold isSpaceTab at hsp
      rcases bool_or_parts hsp with h1 | h1
      · rw [beq_iff_eq] at h1
        rw [h1]
        rfl
      · rw [beq_iff_eq] at h1
        exact absurd (h1 ▸ ha) htab
    · rw [if_neg hsp]
      rfl
  rw [hmap, List.map_id]
  exact squeezeSpaces_id s h

theorem collapseBlankLines_id :
    ∀ (s : List Char), noTripleNl s = true → collapseBlankLines s = s := by
  intro s
  induction s using collapseBlankLines.induct with
  | case1 a b c rest hcond ih =>
      intro h
      exfalso
      rw [noTripleNl, hcond] at h
      simp at h
  | case2 a b c rest hcond ih =>
      intro h
      rw [collapseBlankLines, if_neg hcond, ih (noTripleNl_tail h)]
  | case3 c rest hshape ih =>
      intro h
      rw [collapseBlankLines.eq_2]
      · rw [ih (noTripleNl_tail h)]
      · exact hshape
  | case4 =>
      intro _
      rfl

theorem stripTrailingPerLine_id :
    ∀ (s : List Char), noAdjSpaceTab s = true → noSpaceBeforeNl s = true →
      lastNotSpaceTab s = true → stripTrailingPerLine s = s := by
  intro s
  induction s with
  | nil =>
      intro _ _ _
      rfl
  | cons a rest ih =>
      intro h1 h2 h3
      have hcond : (isSpaceTab a && lineEndsAfterSpaces rest) = false := by
        by_cases hsa : isSpaceTab a = true
        · rw [hsa, Bool.true_and]
          cases rest with
          | nil =>
              exfalso
              unfold lastNotSpaceTab at h3
              simp only [List.getLast?_singleton] at h3
              rw [hsa] at h3
              simp at h3
          | cons b r =>
              have hb : isSpaceTab b = false := by
                rw [noAdjSpaceTab, hsa, Bool.true_and] at h1
                rcases bool_and_parts h1 with ⟨hb1, _⟩
                cases hb2 : isSpaceTab b with
                | false => rfl
                | true => rw [hb2] at hb1; simp at hb1
              have hbn : (b == '\n') = false := by
                rw [noSpaceBeforeNl, hsa, Bool.true_and] at h2
                rcases bool_and_parts h2 with ⟨hb1, _⟩
                cases hb2 : (b == '\n') with
                | false => rfl
                | true => rw [hb2] at hb1; simp at hb1
              unfold lineEndsAfterSpaces
              rw [List.dropWhile_cons, hb]
              simp only [Bool.false_eq_true, if_false]
              exact hbn
        · rw [Bool.not_eq_true] at hsa
          rw [hsa, Bool.false_and]
      rw [stripTrailingPerLine, hcond]
      simp only [Bool.false_eq_true, if_false]
      rw [ih (noAdjSpaceTab_tail h1) (noSpaceBeforeNl_tail h2)
        (lastNotSpaceTab_tail h3)]

theorem dropWhile_id_of_head {p : Char → Bool} (s : List Char)
    (h : ∀ c, s.head? = some c → p c = false) : s.dropWhile p = s := by
  cases s with
  | nil => rfl
  | cons a rest =>
      rw [List.dropWhile_cons, h a rfl]
      simp

theorem dropTrailing_id {p : Char → Bool} :
    ∀ (s : List Char), (∀ c, s.getLast? = some c → p c = false) →
      dropTrailing p s = s := by
  intro s
  induction s with
  | nil =>
      intro _
      rfl
  | cons a rest ih =>
      intro h
      rw [dropTrailing]
      cases rest with
      | nil =>
          simp only [dropTrailing]
          rw [h a (by rfl)]
          simp
      | cons b r =>
          have hr : dropTrailing p (b :: r) = b :: r :=
            ih (fun c hc => h c (by rw [List.getLast?_cons_cons]; exact hc))
          rw [hr]

theorem jsTrim_id (s : List Char)
    (hhead : ∀ c, s.head? = some c → isJsWhitespace c = false)
    (hlast : ∀ c, s.getLast? = some c → isJsWhitespace c = false) :
    jsTrim s = s := by
  unfold jsTrim
  rw [dropWhile_id_of_head s hhead, dropTrailing_id s hlast]


theorem squeezeSpaces_head :
    ∀ (s : List Char), (squeezeSpaces s).head? = s.head? := by
  intro s
  induction s using squeezeSpaces.induct with
  | case1 => rfl
  | case2 d => rfl
  | case3 a b rest hcond ih =>
      rw [squeezeSpaces, if_pos hcond, ih]
      simp only [Bool.and_eq_true, beq_iff_eq] at hcond
      rw [hcond.1, hcond.2]
      rfl
  | case4 a b rest hcond ih =>
      rw [squeezeSpaces, if_neg hcond]
      rfl

theorem squeezeSpaces_noAdj :
    ∀ (s : List Char), '\t' ∉ s → noAdjSpaceTab (squeezeSpaces s) = true := by
  intro s
  induction s using squeezeSpaces.induct with
  | case1 =>
      intro _
      rfl
  | case2 d =>
      intro _
      rfl
  | case3 a b rest hcond ih =>
      intro h
      rw [squeezeSpaces, if_pos hcond]
      exact ih (fun hm => h (List.mem_cons_of_mem _ hm))
  | case4 a b rest hcond ih =>
      intro h
      rw [squeezeSpaces, if_neg hcond]
      apply noAdjSpaceTab_cons
      · intro d hd
        rw [squeezeSpaces_head (b :: rest)] at hd
        simp only [List.head?_cons, Option.some.injEq] at hd
        rw [← hd]
        have ha : (a == '\t') = false := by
          rw [beq_eq_false_iff_ne]
          intro he
          exact h (he ▸ List.mem_cons_self _ _)
        have hb : (b == '\t') = false := by
          rw [beq_eq_false_iff_ne]
          intro he
          exact h (List.mem_cons_of_mem _ (he ▸ List.mem_cons_self _ _))
        unfold isSpaceTab
        cases hsa : (a == ' ') with
        | false => simp [ha]
        | true =>
            cases hsb : (b == ' ') with
            | false => simp [hb]
            | true =>
                exfalso
                rw [beq_iff_eq] at hsa hsb
                rw [hsa, hsb] at hcond
                simp at hcond
      · exact ih (fun hm => h (List.mem_cons_of_mem _ hm))

theorem map_spaceTab_no_tab (s : List Char) :
    '\t' ∉ s.map (fun c => if isSpaceTab c then ' ' else c) := by
  intro h
  rcases List.mem_map.mp h with ⟨a, _, haeq⟩
  by_cases hsp : isSpaceTab a = true
  · rw [if_pos hsp] at haeq
    exact absurd haeq (by decide)
  · rw [if_neg hsp] at haeq
    apply hsp
    rw [haeq]
    rfl

theorem collapseSpaces_noAdj (s : List Char) :
    noAdjSpaceTab (collapseSpaces s) = true :=
  squeezeSpaces_noAdj _ (map_spaceTab_no_tab s)

theorem collapseSpaces_no_tab (s : List Char) : '\t' ∉ collapseSpaces s :=
  fun h => map_spaceTab_no_tab s (mem_squeezeSpaces _ h)

theorem strip_head_of_not_lineEnds :
    ∀ (s : List Char), lineEndsAfterSpaces s = false →
      ∃ d r, stripTrailingPerLine s = d :: r ∧ (d == '\n') = false := by
  intro s
  induction s with
  | nil =>
      intro h
      exact absurd h (by simp [lineEndsAfterSpaces])
  | cons b r ih =>
      intro h
      by_cases hb : isSpaceTab b = true
      · have hle : lineEndsAfterSpaces r = false := by
          unfold lineEndsAfterSpaces at h ⊢
          rw [List.dropWhile_cons, hb] at h
          simpa using h
        rw [stripTrailingPerLine, hb, hle]
        simp only [Bool.and_false, Bool.false_eq_true, if_false]
        refine ⟨b, stripTrailingPerLine r, rfl, ?_⟩
        unfold isSpaceTab at hb
        rcases bool_or_parts hb with h1 | h1 <;>
          [(rw [beq_iff_eq] at h1; rw [h1]; rfl);
           (rw [beq_iff_eq] at h1; rw [h1]; rfl)]
      · have hbn : (b == '\n') = false := by
          unfold lineEndsAfterSpaces at h
          rw [List.dropWhile_cons] at h
          rw [Bool.not_eq_true] at hb
          rw [hb] at h
          simpa using h
        rw [stripTrailingPerLine]
        rw [Bool.not_eq_true] at hb
        rw [hb, Bool.false_and]
        simp only [Bool.false_eq_true, if_false]
        exact ⟨b, stripTrailingPerLine r, rfl, hbn⟩

theorem lastNotSpaceTab_cons {a : Char} {l : List Char} (hne : l ≠ [])
    (hl : lastNotSpaceTab l = true) : lastNotSpaceTab (a :: l) = true := by
  cases l with
  | nil => exact absurd rfl hne
  | cons b r =>
      unfold lastNotSpaceTab at hl ⊢
      rw [List.getLast?_cons_cons]
      exact hl

theorem strip_establishes :
    ∀ (s : List Char),
      noSpaceBeforeNl (stripTrailingPerLine s) = true ∧
        lastNotSpaceTab (stripTrailingPerLine s) = true := by
  intro s
  induction s with
  | nil => exact ⟨rfl, rfl⟩
  | cons a rest ih =>
      rw [stripTrailingPerLine]
      by_cases hcond : (isSpaceTab a && lineEndsAfterSpaces rest) = true
      · rw [if_pos hcond]
        exact ih
      · rw [if_neg hcond]
        rw [Bool.and_eq_true] at hcond
        constructor
        · apply noSpaceBeforeNl_cons
          · intro d hd
            by_cases hsa : isSpaceTab a = true
            · have hle : lineEndsAfterSpaces rest = false := by
                cases hle2 : lineEndsAfterSpaces rest with
                | false => rfl
                | true => exact absurd ⟨hsa, hle2⟩ hcond
              obtain ⟨d2, r2, hsr, hdn⟩ := strip_head_of_not_lineEnds rest hle
              rw [hsr] at hd
              simp only [List.head?_cons, Option.some.injEq] at hd
              subst hd
              rw [hsa, Bool.true_and]
              exact hdn
            · rw [Bool.not_eq_true] at hsa
              rw [hsa, Bool.false_and]
          · exact ih.1
        · by_cases hsr : stripTrailingPerLine rest = []
          · rw [hsr]
            unfold lastNotSpaceTab
            simp only [List.getLast?_singleton]
            by_cases hsa : isSpaceTab a = true
            · exfalso
              have hle : lineEndsAfterSpaces rest = false := by
                cases hle2 : lineEndsAfterSpaces rest with
                | false => rfl
                | true => exact absurd ⟨hsa, hle2⟩ hcond
              obtain ⟨d2, r2, hsr2, _⟩ := strip_head_of_not_lineEnds rest hle
              rw [hsr2] at hsr
              exact List.cons_ne_nil d2 r2 hsr
            · rw [Bool.not_eq_true] at hsa
              rw [hsa]
              rfl
          · exact lastNotSpaceTab_cons hsr ih.2

theorem strip_preserves_noAdj :
    ∀ (s : List Char), noAdjSpaceTab s = true →
      noAdjSpaceTab (stripTrailingPerLine s) = true := by
  intro s
  induction s with
  | nil =>
      intro _
      rfl
  | cons a rest ih =>
      intro h
      rw [stripTrailingPerLine]
      by_cases hcond : (isSpaceTab a && lineEndsAfterSpaces rest) = true
      · rw [if_pos hcond]
        exact ih (noAdjSpaceTab_tail h)
      · rw [if_neg hcond]
        apply noAdjSpaceTab_cons
        · intro d hd
          by_cases hsa : isSpaceTab a = true
          · rw [Bool.and_eq_true] at hcond
            have hle : lineEndsAfterSpaces rest = false := by
              cases hle2 : lineEndsAfterSpaces rest with
              | false => rfl
              | true => exact absurd ⟨hsa, hle2⟩ hcond
            cases rest with
            | nil => simp [lineEndsAfterSpaces] at hle
            | cons b r =>
                have hb : isSpaceTab b = false := by
                  rw [noAdjSpaceTab, hsa, Bool.true_and] at h
                  rcases bool_and_parts h with ⟨hb1, _⟩
                  cases hb2 : isSpaceTab b with
                  | false => rfl
                  | true => rw [hb2] at hb1; simp at hb1
                rw [stripTrailingPerLine, hb, Bool.false_and] at hd
                simp only [Bool.false_eq_true, if_false, List.head?_cons,
                  Option.some.injEq] at hd
                subst hd
                rw [hsa, hb]
                rfl
          · rw [Bool.not_eq_true] at hsa
            rw [hsa, Bool.false_and]
        · exact ih (noAdjSpaceTab_tail h)


theorem cb_take2 :
    ∀ (s : List Char), (collapseBlankLines s).take 2 = s.take 2 := by
  intro s
  induction s using collapseBlankLines.induct with
  | case1 a b c rest hcond ih =>
      rw [collapseBlankLines, if_pos hcond, ih]
      simp only [Bool.and_eq_true, beq_iff_eq] at hcond
      rw [hcond.1.1, hcond.1.2, hcond.2]
      rfl
  | case2 a b c rest hcond ih =>
      rw [collapseBlankLines, if_neg hcond]
      have hh : ∃ t, collapseBlankLines (b :: c :: rest) = b :: t := by
        have h2 := ih
        cases hcb : collapseBlankLines (b :: c :: rest) with
        | nil => rw [hcb] at h2; simp at h2
        | cons x t =>
            rw [hcb] at h2
            simp only [List.take_cons, List.take_succ_cons, List.cons.injEq] at h2
            exact ⟨t, by rw [h2.1]⟩
      obtain ⟨t, ht⟩ := hh
      rw [ht]
      rfl
  | case3 c rest hshape ih =>
      rw [collapseBlankLines.eq_2]
      · cases rest with
        | nil => rfl
        | cons d t =>
            have h2 := ih
            cases hcb : collapseBlankLines (d :: t) with
            | nil => rw [hcb] at h2; simp at h2
            | cons x r2 =>
                rw [hcb] at h2
                simp only [List.take_succ_cons, List.take_zero,
                  List.cons.injEq] at h2
                simp only [List.take_succ_cons, List.take_zero,
                  List.cons.injEq, true_and]
                exact ⟨h2.1, trivial⟩
      · exact hshape
  | case4 => rfl

theorem cb_head :
    ∀ (s : List Char), (collapseBlankLines s).head? = s.head? := by
  intro s
  have h := cb_take2 s
  cases s with
  | nil => rfl
  | cons a rest =>
      cases hcb : collapseBlankLines (a :: rest) with
      | nil => rw [hcb] at h; simp at h
      | cons x t =>
          rw [hcb] at h
          simp only [List.take_succ_cons, List.cons.injEq] at h
          rw [h.1]
          rfl

theorem cb_ne_nil {a : Char} {l : List Char} :
    collapseBlankLines (a :: l) ≠ [] := by
  intro h
  have h2 := cb_head (a :: l)
  rw [h] at h2
  simp at h2

theorem getLast?_cons_of_ne_nil {a : Char} {l : List Char} (h : l ≠ []) :
    (a :: l).getLast? = l.getLast? := by
  cases l with
  | nil => exact absurd rfl h
  | cons b r => exact List.getLast?_cons_cons

theorem cb_getLast :
    ∀ (s : List Char), (collapseBlankLines s).getLast? = s.getLast? := by
  intro s
  induction s using collapseBlankLines.induct with
  | case1 a b c rest hcond ih =>
      rw [collapseBlankLines, if_pos hcond, ih,
        getLast?_cons_of_ne_nil (List.cons_ne_nil b (c :: rest))]
  | case2 a b c rest hcond ih =>
      rw [collapseBlankLines, if_neg hcond,
        getLast?_cons_of_ne_nil cb_ne_nil, ih,
        getLast?_cons_of_ne_nil (List.cons_ne_nil b (c :: rest))]
  | case3 c rest hshape ih =>
      rw [collapseBlankLines.eq_2]
      · cases rest with
        | nil => rfl
        | cons d t =>
            rw [getLast?_cons_of_ne_nil cb_ne_nil, ih,
              getLast?_cons_of_ne_nil (List.cons_ne_nil d t)]
      · exact hshape
  | case4 => rfl

theorem cb_noTriple :
    ∀ (s : List Char), noTripleNl (collapseBlankLines s) = true := by
  intro s
  induction s using collapseBlankLines.induct with
  | case1 a b c rest hcond ih =>
      rw [collapseBlankLines, if_pos hcond]
      exact ih
  | case2 a b c rest hcond ih =>
      rw [collapseBlankLines, if_neg hcond]
      apply noTripleNl_cons
      · intro d e r hde
        have h2 := cb_take2 (b :: c :: rest)
        rw [hde] at h2
        simp only [List.take_succ_cons, List.take_zero, List.cons.injEq] at h2
        cases hd : (a == '\n') with
        | false => rfl
        | true =>
            cases he : (d == '\n') with
            | false => simp [hd, he]
            | true =>
                cases hf : (e == '\n') with
                | false => simp [hd, he, hf]
                | true =>
                    exfalso
                    apply hcond
                    rw [beq_iff_eq] at he hf
                    rw [hd, ← h2.1, ← h2.2.1, he, hf]
                    simp
      · exact ih
  | case3 c rest hshape ih =>
      rw [collapseBlankLines.eq_2]
      · apply noTripleNl_cons
        · intro d e r hde
          exfalso
          cases rest with
          | nil => simp [collapseBlankLines] at hde
          | cons x t =>
              cases t with
              | nil =>
                  rw [show collapseBlankLines [x] = [x] from rfl] at hde
                  simp at hde
              | cons y u => exact hshape x y u rfl
        · exact ih
      · exact hshape
  | case4 => rfl

theorem cb_preserves_noAdj :
    ∀ (s : List Char), noAdjSpaceTab s = true →
      noAdjSpaceTab (collapseBlankLines s) = true := by
  intro s
  induction s using collapseBlankLines.induct with
  | case1 a b c rest hcond ih =>
      intro h
      rw [collapseBlankLines, if_pos hcond]
      exact ih (noAdjSpaceTab_tail h)
  | case2 a b c rest hcond ih =>
      intro h
      rw [collapseBlankLines, if_neg hcond]
      apply noAdjSpaceTab_cons
      · intro d hd
        rw [cb_head (b :: c :: rest)] at hd
        simp only [List.head?_cons, Option.some.injEq] at hd
        rw [← hd]
        rw [noAdjSpaceTab] at h
        rcases bool_and_parts h with ⟨h1, _⟩
        cases h2 : (isSpaceTab a && isSpaceTab b) with
        | false => rfl
        | true => rw [h2] at h1; simp at h1
      · exact ih (noAdjSpaceTab_tail h)
  | case3 c rest hshape ih =>
      intro h
      rw [collapseBlankLines.eq_2]
      · apply noAdjSpaceTab_cons
        · intro d hd
          rw [cb_head rest] at hd
          cases rest with
          | nil => simp at hd
          | cons b r =>
              simp only [List.head?_cons, Option.some.injEq] at hd
              rw [← hd]
              rw [noAdjSpaceTab] at h
              rcases bool_and_parts h with ⟨h1, _⟩
              cases h2 : (isSpaceTab c && isSpaceTab b) with
              | false => rfl
              | true => rw [h2] at h1; simp at h1
        · exact ih (noAdjSpaceTab_tail h)
      · exact hshape
  | case4 =>
      intro _
      rfl

theorem cb_preserves_noSpaceBeforeNl :
    ∀ (s : List Char), noSpaceBeforeNl s = true →
      noSpaceBeforeNl (collapseBlankLines s) = true := by
  intro s
  induction s using collapseBlankLines.induct with
  | case1 a b c rest hcond ih =>
      intro h
      rw [collapseBlankLines, if_pos hcond]
      exact ih (noSpaceBeforeNl_tail h)
  | case2 a b c rest hcond ih =>
      intro h
      rw [collapseBlankLines, if_neg hcond]
      apply noSpaceBeforeNl_cons
      · intro d hd
        rw [cb_head (b :: c :: rest)] at hd
        simp only [List.head?_cons, Option.some.injEq] at hd
        rw [← hd]
        rw [noSpaceBeforeNl] at h
        rcases bool_and_parts h with ⟨h1, _⟩
        cases h2 : (isSpaceTab a && b == '\n') with
        | false => rfl
        | true => rw [h2] at h1; simp at h1
      · exact ih (noSpaceBeforeNl_tail h)
  | case3 c rest hshape ih =>
      intro h
      rw [collapseBlankLines.eq_2]
      · apply noSpaceBeforeNl_cons
        · intro d hd
          rw [cb_head rest] at hd
          cases rest with
          | nil => simp at hd
          | cons b r =>
              simp only [List.head?_cons, Option.some.injEq] at hd
              rw [← hd]
              rw [noSpaceBeforeNl] at h
              rcases bool_and_parts h with ⟨h1, _⟩
              cases h2 : (isSpaceTab c && b == '\n') with
              | false => rfl
              | true => rw [h2] at h1; simp at h1
        · exact ih (noSpaceBeforeNl_tail h)
      · exact hshape
  | case4 =>
      intro _
      rfl

theorem cb_preserves_lastNot (s : List Char)
    (h : lastNotSpaceTab s = true) :
    lastNotSpaceTab (collapseBlankLines s) = true := by
  unfold lastNotSpaceTab at h ⊢
  rw [cb_getLast s]
  exact h

theorem dropWhile_preserves_noAdj {p : Char → Bool} :
    ∀ (s : List Char), noAdjSpaceTab s = true →
      noAdjSpaceTab (s.dropWhile p) = true := by
  intro s
  induction s with
  | nil =>
      intro _
      rfl
  | cons a rest ih =>
      intro h
      rw [List.dropWhile_cons]
      split
      · exact ih (noAdjSpaceTab_tail h)
      · exact h

theorem dropWhile_preserves_noSpaceBeforeNl {p : Char → Bool} :
    ∀ (s : List Char), noSpaceBeforeNl s = true →
      noSpaceBeforeNl (s.dropWhile p) = true := by
  intro s
  induction s with
  | nil =>
      intro _
      rfl
  | cons a rest ih =>
      intro h
      rw [List.dropWhile_cons]
      split
      · exact ih (noSpaceBeforeNl_tail h)
      · exact h

theorem dropWhile_preserves_noTriple {p : Char → Bool} :
    ∀ (s : List Char), noTripleNl s = true →
      noTripleNl (s.dropWhile p) = true := by
  intro s
  induction s with
  | nil =>
      intro _
      rfl
  | cons a rest ih =>
      intro h
      rw [List.dropWhile_cons]
      split
      · exact ih (noTripleNl_tail h)
      · exact h

theorem dropWhile_preserves_lastNot {p : Char → Bool} :
    ∀ (s : List Char), lastNotSpaceTab s = true →
      lastNotSpaceTab (s.dropWhile p) = true := by
  intro s
  induction s with
  | nil =>
      intro _
      rfl
  | cons a rest ih =>
      intro h
      rw [List.dropWhile_cons]
      split
      · exact ih (lastNotSpaceTab_tail h)
      · exact h

theorem dropWhile_head_false {p : Char → Bool} (s : List Char) :
    ∀ c, (s.dropWhile p).head? = some c → p c = false := by
  induction s with
  | nil =>
      intro c hc
      simp at hc
  | cons a rest ih =>
      intro c hc
      rw [List.dropWhile_cons] at hc
      by_cases hp : p a = true
      · rw [if_pos hp] at hc
        exact ih c hc
      · rw [if_neg hp] at hc
        simp only [List.head?_cons, Option.some.injEq] at hc
        rw [← hc]
        rw [Bool.not_eq_true] at hp
        exact hp

theorem dropTrailing_prefix {p : Char → Bool} :
    ∀ (s : List Char), ∃ t, dropTrailing p s ++ t = s := by
  intro s
  induction s with
  | nil => exact ⟨[], rfl⟩
  | cons a rest ih =>
      rw [dropTrailing]
      cases hdt : dropTrailing p rest with
      | nil =>
          by_cases hp : p a = true
          · rw [if_pos hp]
            exact ⟨a :: rest, rfl⟩
          · rw [if_neg hp]
            exact ⟨rest, rfl⟩
      | cons b r =>
          obtain ⟨t, ht⟩ := ih
          rw [hdt] at ht
          exact ⟨t, by rw [List.cons_append, ht]⟩

theorem dropTrailing_last {p : Char → Bool} :
    ∀ (s : List Char) (c : Char),
      (dropTrailing p s).getLast? = some c → p c = false := by
  intro s
  induction s with
  | nil =>
      intro c hc
      simp [dropTrailing] at hc
  | cons a rest ih =>
      intro c hc
      rw [dropTrailing] at hc
      cases hdt : dropTrailing p rest with
      | nil =>
          rw [hdt] at hc
          by_cases hp : p a = true
          · rw [if_pos hp] at hc
            simp at hc
          · rw [if_neg hp] at hc
            simp only [List.getLast?_singleton, Option.some.injEq] at hc
            rw [← hc]
            rw [Bool.not_eq_true] at hp
            exact hp
      | cons b r =>
          rw [hdt] at hc
          rw [getLast?_cons_of_ne_nil (List.cons_ne_nil b r)] at hc
          rw [← hdt] at hc
          exact ih c hc

theorem dropTrailing_head {p : Char → Bool} :
    ∀ (s : List Char), (dropTrailing p s).head? = s.head? ∨
      dropTrailing p s = [] := by
  intro s
  cases s with
  | nil => exact Or.inr rfl
  | cons a rest =>
      rw [dropTrailing]
      cases dropTrailing p rest with
      | nil =>
          by_cases hp : p a = true
          · rw [if_pos hp]
            exact Or.inr rfl
          · rw [if_neg hp]
            exact Or.inl rfl
      | cons b r => exact Or.inl rfl

theorem noAdjSpaceTab_append_left :
    ∀ (l t : List Char), noAdjSpaceTab (l ++ t) = true →
      noAdjSpaceTab l = true := by
  intro l
  induction l with
  | nil =>
      intro t _
      rfl
  | cons a l2 ih =>
      intro t h
      apply noAdjSpaceTab_cons
      · intro d hd
        cases l2 with
        | nil => simp at hd
        | cons b r =>
            simp only [List.head?_cons, Option.some.injEq] at hd
            rw [← hd]
            rw [List.cons_append, List.cons_append, noAdjSpaceTab] at h
            rcases bool_and_parts h with ⟨h1, _⟩
            cases h2 : (isSpaceTab a && isSpaceTab b) with
            | false => rfl
            | true => rw [h2] at h1; simp at h1
      · apply ih t
        rw [List.cons_append] at h
        exact noAdjSpaceTab_tail h

theorem noSpaceBeforeNl_append_left :
    ∀ (l t : List Char), noSpaceBeforeNl (l ++ t) = true →
      noSpaceBeforeNl l = true := by
  intro l
  induction l with
  | nil =>
      intro t _
      rfl
  | cons a l2 ih =>
      intro t h
      apply noSpaceBeforeNl_cons
      · intro d hd
        cases l2 with
        | nil => simp at hd
        | cons b r =>
            simp only [List.head?_cons, Option.some.injEq] at hd
            rw [← hd]
            rw [List.cons_append, List.cons_append, noSpaceBeforeNl] at h
            rcases bool_and_parts h with ⟨h1, _⟩
            cases h2 : (isSpaceTab a && b == '\n') with
            | false => rfl
            | true => rw [h2] at h1; simp at h1
      · apply ih t
        rw [List.cons_append] at h
        exact noSpaceBeforeNl_tail h

theorem noTripleNl_append_left :
    ∀ (l t : List Char), noTripleNl (l ++ t) = true →
      noTripleNl l = true := by
  intro l
  induction l with
  | nil =>
      intro t _
      rfl
  | cons a l2 ih =>
      intro t h
      apply noTripleNl_cons
      · intro d e r hde
        rw [hde] at h
        simp only [List.cons_append] at h
        rw [noTripleNl] at h
        rcases bool_and_parts h with ⟨h1, _⟩
        cases h2 : (a == '\n' && d == '\n' && e == '\n') with
        | false => rfl
        | true => rw [h2] at h1; simp at h1
      · apply ih t
        rw [List.cons_append] at h
        exact noTripleNl_tail h


theorem replaceChar_not_mem {t : Char} {repl : List Char} (hrepl : t ∉ repl) :
    ∀ (s : List Char), t ∉ replaceChar t repl s := by
  intro s
  induction s with
  | nil =>
      intro h
      simp [replaceChar] at h
  | cons a rest ih =>
      intro h
      rw [replaceChar] at h
      rcases List.mem_append.mp h with h1 | h1
      · by_cases ha : (a == t) = true
        · rw [if_pos ha] at h1
          exact hrepl h1
        · rw [if_neg ha] at h1
          rw [List.mem_singleton] at h1
          rw [Bool.not_eq_true, beq_eq_false_iff_ne] at ha
          exact ha h1.symm
      · exact ih h1

theorem mem_ligChars {c : Char} {l : List Char}
    (hsub : ∀ d ∈ l, d = 'f' ∨ d = 'i' ∨ d = 'l') (h : c ∈ l) :
    c = 'f' ∨ c = 'i' ∨ c = 'l' := hsub c h

theorem ligChars_conclusion {c : Char} {s l : List Char}
    (hsub : ∀ d ∈ l, d = 'f' ∨ d = 'i' ∨ d = 'l') (h : c ∈ l) :
    c ∈ s ∨ c = ' ' ∨ c = 'f' ∨ c = 'i' ∨ c = 'l' := by
  rcases hsub c h with h3 | h3 | h3
  · exact Or.inr (Or.inr (Or.inl h3))
  · exact Or.inr (Or.inr (Or.inr (Or.inl h3)))
  · exact Or.inr (Or.inr (Or.inr (Or.inr h3)))

theorem mem_afterDehyph {c : Char} {s : List Char}
    (h : c ∈ jsTrim (collapseBlankLines (stripTrailingPerLine
      (collapseSpaces (dehyphenate s))))) : c ∈ s ∨ c = ' ' := by
  have h9 := mem_jsTrim _ h
  have h8 := mem_collapseBlankLines _ h9
  have h7 := mem_stripTrailingPerLine _ h8
  rcases mem_collapseSpaces _ h7 with h6 | he
  · exact Or.inl (mem_dehyphenate _ h6)
  · exact Or.inr he

theorem mem_afterLig {c : Char} {s : List Char}
    (h : c ∈ jsTrim (collapseBlankLines (stripTrailingPerLine
      (collapseSpaces (dehyphenate (applyLigatures s)))))) :
    c ∈ s ∨ c = ' ' ∨ c = 'f' ∨ c = 'i' ∨ c = 'l' := by
  rcases mem_afterDehyph h with h5 | he
  · unfold applyLigatures at h5
    rcases mem_replaceChar _ h5 with h5 | hr
    · rcases mem_replaceChar _ h5 with h5 | hr
      · rcases mem_replaceChar _ h5 with h5 | hr
        · rcases mem_replaceChar _ h5 with h5 | hr
          · rcases mem_replaceChar _ h5 with h5 | hr
            · exact Or.inl h5
            · exact ligChars_conclusion (by decide) hr
          · exact ligChars_conclusion (by decide) hr
        · exact ligChars_conclusion (by decide) hr
      · exact ligChars_conclusion (by decide) hr
    · exact ligChars_conclusion (by decide) hr
  · simp [he]

theorem mem_afterCtrl {c : Char} {s : List Char}
    (h : c ∈ jsTrim (collapseBlankLines (stripTrailingPerLine
      (collapseSpaces (dehyphenate (applyLigatures (removeControlChars s))))))) :
    c ∈ s ∨ c = ' ' ∨ c = 'f' ∨ c = 'i' ∨ c = 'l' := by
  rcases mem_afterLig h with h4 | rest
  · exact Or.inl (List.mem_of_mem_filter h4)
  · exact Or.inr rest

theorem mem_afterTab {c : Char} {s : List Char}
    (h : c ∈ jsTrim (collapseBlankLines (stripTrailingPerLine
      (collapseSpaces (dehyphenate (applyLigatures (removeControlChars
        (replaceChar '\t' [' '] s)))))))) :
    c ∈ s ∨ c = ' ' ∨ c = 'f' ∨ c = 'i' ∨ c = 'l' := by
  rcases mem_afterCtrl h with h3 | rest
  · rcases mem_replaceChar _ h3 with h2 | hr
    · exact Or.inl h2
    · rw [List.mem_singleton] at hr
      simp [hr]
  · exact Or.inr rest

theorem mem_afterNbsp {c : Char} {s : List Char}
    (h : c ∈ jsTrim (collapseBlankLines (stripTrailingPerLine
      (collapseSpaces (dehyphenate (applyLigatures (removeControlChars
        (replaceChar '\t' [' '] (replaceChar nbspChar [' '] s))))))))) :
    c ∈ s ∨ c = ' ' ∨ c = 'f' ∨ c = 'i' ∨ c = 'l' := by
  rcases mem_afterTab h with h2 | rest
  · rcases mem_replaceChar _ h2 with h1 | hr
    · exact Or.inl h1
    · rw [List.mem_singleton] at hr
      simp [hr]
  · exact Or.inr rest

theorem mem_canonicalChars {c : Char} {x : List Char}
    (h : c ∈ canonicalizeText x) :
    c ∈ x ∨ c = '\n' ∨ c = ' ' ∨ c = 'f' ∨ c = 'i' ∨ c = 'l' := by
  unfold canonicalizeText at h
  rcases mem_afterNbsp h with h1 | rest
  · rcases mem_replaceChar _ h1 with h0 | hr
    · rcases mem_replaceCRLF _ h0 with hx | he
      · exact Or.inl hx
      · simp [he]
    · rw [List.mem_singleton] at hr
      simp [hr]
  · rcases rest with hr | hr | hr | hr <;> simp [hr]

theorem ffMissing (s : List Char) : 'ﬀ' ∉ applyLigatures s := by
  intro h
  unfold applyLigatures at h
  rcases mem_replaceChar _ h with h | hr
  · rcases mem_replaceChar _ h with h | hr
    · rcases mem_replaceChar _ h with h | hr
      · rcases mem_replaceChar _ h with h | hr
        · exact replaceChar_not_mem
            (show ('ﬀ' : Char) ∉ ['f', 'f'] by decide) s h
        · simp at hr
      · simp at hr
    · simp at hr
  · simp at hr

theorem fiMissing (s : List Char) : 'ﬁ' ∉ applyLigatures s := by
  intro h
  unfold applyLigatures at h
  rcases mem_replaceChar _ h with h | hr
  · rcases mem_replaceChar _ h with h | hr
    · rcases mem_replaceChar _ h with h | hr
      · exact replaceChar_not_mem
          (show ('ﬁ' : Char) ∉ ['f', 'i'] by decide) _ h
      · simp at hr
    · simp at hr
  · simp at hr

theorem flMissing (s : List Char) : 'ﬂ' ∉ applyLigatures s := by
  intro h
  unfold applyLigatures at h
  rcases mem_replaceChar _ h with h | hr
  · rcases mem_replaceChar _ h with h | hr
    · exact replaceChar_not_mem
        (show ('ﬂ' : Char) ∉ ['f', 'l'] by decide) _ h
    · simp at hr
  · simp at hr

theorem ffiMissing (s : List Char) : 'ﬃ' ∉ applyLigatures s := by
  intro h
  unfold applyLigatures at h
  rcases mem_replaceChar _ h with h | hr
  · exact replaceChar_not_mem
      (show ('ﬃ' : Char) ∉ ['f', 'f', 'i'] by decide) _ h
  · simp at hr

theorem fflMissing (s : List Char) : 'ﬄ' ∉ applyLigatures s := by
  intro h
  unfold applyLigatures at h
  exact replaceChar_not_mem
    (show ('ﬄ' : Char) ∉ ['f', 'f', 'l'] by decide) _ h

theorem jsTrim_preserves_noAdj (s : List Char)
    (h : noAdjSpaceTab s = true) : noAdjSpaceTab (jsTrim s) = true := by
  unfold jsTrim
  obtain ⟨t, ht⟩ :=
    dropTrailing_prefix (p := isJsWhitespace) (s.dropWhile isJsWhitespace)
  apply noAdjSpaceTab_append_left _ t
  rw [ht]
  exact dropWhile_preserves_noAdj s h

theorem jsTrim_preserves_noSpaceBeforeNl (s : List Char)
    (h : noSpaceBeforeNl s = true) : noSpaceBeforeNl (jsTrim s) = true := by
  unfold jsTrim
  obtain ⟨t, ht⟩ :=
    dropTrailing_prefix (p := isJsWhitespace) (s.dropWhile isJsWhitespace)
  apply noSpaceBeforeNl_append_left _ t
  rw [ht]
  exact dropWhile_preserves_noSpaceBeforeNl s h

theorem jsTrim_preserves_noTriple (s : List Char)
    (h : noTripleNl s = true) : noTripleNl (jsTrim s) = true := by
  unfold jsTrim
  obtain ⟨t, ht⟩ :=
    dropTrailing_prefix (p := isJsWhitespace) (s.dropWhile isJsWhitespace)
  apply noTripleNl_append_left _ t
  rw [ht]
  exact dropWhile_preserves_noTriple s h

theorem jsTrim_head (s : List Char) :
    ∀ c, (jsTrim s).head? = some c → isJsWhitespace c = false := by
  intro c hc
  unfold jsTrim at hc
  rcases dropTrailing_head (p := isJsWhitespace) (s.dropWhile isJsWhitespace)
    with heq | hnil
  · rw [heq] at hc
    exact dropWhile_head_false s c hc
  · rw [hnil] at hc
    simp at hc

theorem jsTrim_last (s : List Char) :
    ∀ c, (jsTrim s).getLast? = some c → isJsWhitespace c = false := by
  intro c hc
  unfold jsTrim at hc
  exact dropTrailing_last _ c hc

theorem jsTrim_lastNot (s : List Char) : lastNotSpaceTab (jsTrim s) = true := by
  unfold lastNotSpaceTab
  cases hl : (jsTrim s).getLast? with
  | none => rfl
  | some c =>
      have hws := jsTrim_last s c hl
      cases hst : isSpaceTab c with
      | false => simp [hst]
      | true => rw [isJsWhitespace_of_isSpaceTab hst] at hws; simp at hws

/-- C2 (amended): canonicalization is idempotent on every input containing
no hyphen character.  (In general it is not idempotent: the trailing-space
strip runs after de-hyphenation and can expose a new letter-hyphen-newline-
letter site that only the next pass rewrites; the counterexample needs a
hyphen, and without one every pass is a no-op on canonical output.) -/
theorem canonicalizeText_idempotent_of_no_hyphen (x : List Char)
    (hx : '-' ∉ x) :
    canonicalizeText (canonicalizeText x) = canonicalizeText x := by
  set y := canonicalizeText x with hy
  have hy2 : y = jsTrim (collapseBlankLines (stripTrailingPerLine
      (collapseSpaces (dehyphenate (applyLigatures (removeControlChars
        (replaceChar '\t' [' '] (replaceChar nbspChar [' ']
          (replaceChar '\r' ['\n'] (replaceCRLF x)))))))))) := hy
  have h_r : '\r' ∉ y := by
    rw [hy2]
    intro hm
    rcases mem_afterNbsp hm with h1 | hr
    · exact replaceChar_not_mem
        (show ('\r' : Char) ∉ ['\n'] by decide) _ h1
    · rcases hr with hr | hr | hr | hr <;> exact absurd hr (by decide)
  have h_nbsp : nbspChar ∉ y := by
    rw [hy2]
    intro hm
    rcases mem_afterTab hm with h2 | hr
    · exact replaceChar_not_mem
        (show nbspChar ∉ [' '] by decide) _ h2
    · rcases hr with hr | hr | hr | hr <;> exact absurd hr (by decide)
  have h_tab : '\t' ∉ y := by
    rw [hy2]
    intro hm
    rcases mem_afterCtrl hm with h3 | hr
    · exact replaceChar_not_mem
        (show ('\t' : Char) ∉ [' '] by decide) _ h3
    · rcases hr with hr | hr | hr | hr <;> exact absurd hr (by decide)
  have h_ctrl : ∀ c ∈ y, isControlChar c = false := by
    rw [hy2]
    intro c hm
    rcases mem_afterLig hm with h4 | hr
    · have := List.of_mem_filter h4
      cases hic : isControlChar c with
      | false => rfl
      | true => rw [hic] at this; simp at this
    · rcases hr with hr | hr | hr | hr <;> rw [hr] <;> decide
  have h_ff : 'ﬀ' ∉ y := by
    rw [hy2]
    intro hm
    rcases mem_afterDehyph hm with h5 | hr
    · exact ffMissing _ h5
    · exact absurd hr (by decide)
  have h_fi : 'ﬁ' ∉ y := by
    rw [hy2]
    intro hm
    rcases mem_afterDehyph hm with h5 | hr
    · exact fiMissing _ h5
    · exact absurd hr (by decide)
  have h_fl : 'ﬂ' ∉ y := by
    rw [hy2]
    intro hm
    rcases mem_afterDehyph hm with h5 | hr
    · exact flMissing _ h5
    · exact absurd hr (by decide)
  have h_ffi : 'ﬃ' ∉ y := by
    rw [hy2]
    intro hm
    rcases mem_afterDehyph hm with h5 | hr
    · exact ffiMissing _ h5
    · exact absurd hr (by decide)
  have h_ffl : 'ﬄ' ∉ y := by
    rw [hy2]
    intro hm
    rcases mem_afterDehyph hm with h5 | hr
    · exact fflMissing _ h5
    · exact absurd hr (by decide)
  have h_dash : '-' ∉ y := by
    intro hm
    rcases mem_canonicalChars (hy ▸ hm) with hxx | hr
    · exact hx hxx
    · rcases hr with hr | hr | hr | hr | hr <;> exact absurd hr (by decide)
  have hnoAdj : noAdjSpaceTab y = true := by
    rw [hy2]
    exact jsTrim_preserves_noAdj _ (cb_preserves_noAdj _
      (strip_preserves_noAdj _ (collapseSpaces_noAdj _)))
  have hnoSp : noSpaceBeforeNl y = true := by
    rw [hy2]
    exact jsTrim_preserves_noSpaceBeforeNl _
      (cb_preserves_noSpaceBeforeNl _ (strip_establishes _).1)
  have hlastN : lastNotSpaceTab y = true := by
    rw [hy2]
    exact jsTrim_lastNot _
  have htrip : noTripleNl y = true := by
    rw [hy2]
    exact jsTrim_preserves_noTriple _ (cb_noTriple _)
  have hheadWs : ∀ c, y.head? = some c → isJsWhitespace c = false := by
    rw [hy2]
    exact jsTrim_head _
  have hlastWs : ∀ c, y.getLast? = some c → isJsWhitespace c = false := by
    rw [hy2]
    exact jsTrim_last _
  show canonicalizeText y = y
  unfold canonicalizeText
  rw [replaceCRLF_id y h_r, replaceChar_id y h_r, replaceChar_id y h_nbsp,
    replaceChar_id y h_tab, removeControlChars_id y h_ctrl,
    applyLigatures_id y h_ff h_fi h_fl h_ffi h_ffl, dehyphenate_id y h_dash,
    collapseSpaces_id y h_tab hnoAdj,
    stripTrailingPerLine_id y hnoAdj hnoSp hlastN,
    collapseBlankLines_id y htrip, jsTrim_id y hheadWs hlastWs]

/-- C2 counterexample: canonicalization is not idempotent.  On the input
letter, hyphen, space, newline, letter the first pass only strips the
trailing space (the space blocks de-hyphenation, which runs earlier),
producing a new de-hyphenation site that the second pass rewrites. -/
theorem canonicalizeText_not_idempotent :
    canonicalizeText (canonicalizeText ['a', '-', ' ', '\n', 'b']) ≠
      canonicalizeText ['a', '-', ' ', '\n', 'b'] := by
  decide

/-- C2 witness: a concrete hyphen-free input with control characters,
carriage returns, tabs, runs of spaces and blank lines, canonicalized to a
fixed point after one pass. -/
theorem canonicalizeText_idempotent_witness :
    canonicalizeText (canonicalizeText
        ("  Hello\t\tworld \r\n\r\n\r\nTest  ".toList)) =
      canonicalizeText ("  Hello\t\tworld \r\n\r\n\r\nTest  ".toList) :=
  canonicalizeText_idempotent_of_no_hyphen
    ("  Hello\t\tworld \r\n\r\n\r\nTest  ".toList) (by decide)

theorem chunkPiece_text_eq (text : List Char) (start e : Nat) :
    ∀ ck ∈ chunkPiece text start e,
      ck.text = sliceList text ck.startOffset ck.endOffset := by
  intro ck hck
  unfold chunkPiece at hck
  split at hck
  · rw [List.mem_singleton] at hck
    subst hck
    rfl
  · simp at hck

theorem chunkLoop_text_eq (text : List Char) (cs co : Nat) :
    ∀ (n start : Nat), text.length - start ≤ n →
      ∀ ck ∈ chunkLoop text cs co start,
        ck.text = sliceList text ck.startOffset ck.endOffset := by
  intro n
  induction n with
  | zero =>
      intro start hle ck hck
      rw [chunkLoop] at hck
      have hs : ¬ start < text.length := by omega
      simp [hs] at hck
  | succ n ih =>
      intro start hle ck hck
      rw [chunkLoop] at hck
      by_cases hs : start < text.length
      · rw [dif_pos hs] at hck
        by_cases he : text.length ≤ chunkEnd text cs start
        · rw [if_pos he] at hck
          exact chunkPiece_text_eq text start _ ck hck
        · rw [if_neg he] at hck
          rcases List.mem_append.mp hck with h1 | h2
          · exact chunkPiece_text_eq text start _ ck h1
          · apply ih (chunkNext (chunkEnd text cs start) co start) _ ck h2
            have := chunkNext_gt (chunkEnd text cs start) co start
            omega
      · rw [dif_neg hs] at hck
        simp at hck

/-- C1: for every canonical text accepted by the chunker (non-empty after
trim, chunk size at least 100, overlap below the chunk size), every chunk
in the returned list satisfies
`text = canonicalText.slice(startOffset, endOffset)`. -/
theorem chunkTextWithOffsets_offsets_correct (t : List Char) (cs co : Nat)
    (chunks : List AnchoredChunk)
    (h : chunkTextWithOffsets t cs co = Except.ok chunks) :
    ∀ ck ∈ chunks, ck.text = sliceList t ck.startOffset ck.endOffset := by
  unfold chunkTextWithOffsets at h
  split at h
  · exact absurd h (by simp)
  · split at h
    · exact absurd h (by simp)
    · split at h
      · exact absurd h (by simp)
      · split at h
        · exact absurd h (by simp)
        · rename_i hloop
          injection h with h
          subst h
          intro ck hck
          exact chunkLoop_text_eq t cs co t.length 0 (by omega) ck hck

/-- C1 witness: a concrete accepted input evaluated through the chunker. -/
theorem chunkTextWithOffsets_offsets_correct_witness :
    (AnchoredChunk.mk 0 28 ("Hello world, this is a test.".toList)).text =
      sliceList ("Hello world, this is a test.".toList) 0 28 := by
  apply chunkTextWithOffsets_offsets_correct ("Hello world, this is a test.".toList)
    100 0 [AnchoredChunk.mk 0 28 ("Hello world, this is a test.".toList)]
  · unfold chunkTextWithOffsets chunkLoop
    decide
  · exact List.mem_singleton.mpr rfl

/-- C9: under the validated preconditions the chunking loop always makes
strict forward progress: the next cursor strictly exceeds the current one
(even when `end - chunkOverlap` would not move it forward), so the measure
`text.length - start` strictly decreases and the loop of
`chunkTextWithOffsets` terminates. -/
theorem chunk_cursor_strictly_advances (text : List Char) (cs co start : Nat)
    (h : start < text.length) :
    start < chunkNext (chunkEnd text cs start) co start ∧
      text.length - chunkNext (chunkEnd text cs start) co start <
        text.length - start :=
  ⟨chunkNext_gt _ _ _, Nat.sub_lt_sub_left h (chunkNext_gt _ _ _)⟩

theorem finalizeJobDecision_eq_RUNNING (maxAttempts : Nat)
    (rows : List VectorOutboxRow) :
    finalizeJobDecision maxAttempts rows = JobStatus.RUNNING ↔
      (∃ r ∈ rows, r.status = OutboxStatus.PENDING ∨
        r.status = OutboxStatus.RUNNING) ∨
      (∃ r ∈ rows, r.status = OutboxStatus.FAILED ∧
        r.attemptCount < maxAttempts) := by
  unfold finalizeJobDecision
  constructor
  · intro h
    by_cases h1 : 0 < rows.countP
        (fun r => r.status == OutboxStatus.PENDING ||
          r.status == OutboxStatus.RUNNING)
    · left
      obtain ⟨r, hr, hp⟩ := List.countP_pos_iff.mp h1
      refine ⟨r, hr, ?_⟩
      revert hp
      cases r.status <;> simp
    · rw [if_neg h1] at h
      by_cases h2 : 0 < rows.countP
          (fun r => r.status == OutboxStatus.FAILED &&
            decide (r.attemptCount < maxAttempts))
      · right
        obtain ⟨r, hr, hp⟩ := List.countP_pos_iff.mp h2
        refine ⟨r, hr, ?_⟩
        revert hp
        cases r.status <;> simp
      · rw [if_neg h2] at h
        split at h <;> simp at h
  · intro h
    rcases h with ⟨r, hr, hp⟩ | ⟨r, hr, hp⟩
    · rw [if_pos]
      apply List.countP_pos_iff.mpr
      refine ⟨r, hr, ?_⟩
      rcases hp with hp | hp <;> simp [hp]
    · by_cases h1 : 0 < rows.countP
          (fun r => r.status == OutboxStatus.PENDING ||
            r.status == OutboxStatus.RUNNING)
      · rw [if_pos h1]
      · rw [if_neg h1, if_pos]
        apply List.countP_pos_iff.mpr
        exact ⟨r, hr, by simp [hp.1, hp.2]⟩

theorem finalizeJobDecision_eq_PARTIAL (maxAttempts : Nat)
    (rows : List VectorOutboxRow)
    (hnr : finalizeJobDecision maxAttempts rows ≠ JobStatus.RUNNING) :
    (finalizeJobDecision maxAttempts rows = JobStatus.PARTIAL_FAILED ↔
      ∃ r ∈ rows, r.status = OutboxStatus.FAILED ∧
        maxAttempts ≤ r.attemptCount) := by
  unfold finalizeJobDecision at *
  by_cases h1 : 0 < rows.countP
      (fun r => r.status == OutboxStatus.PENDING ||
        r.status == OutboxStatus.RUNNING)
  · exact absurd (if_pos h1) hnr
  · rw [if_neg h1] at *
    by_cases h2 : 0 < rows.countP
        (fun r => r.status == OutboxStatus.FAILED &&
          decide (r.attemptCount < maxAttempts))
    · exact absurd (if_pos h2) hnr
    · rw [if_neg h2] at *
      constructor
      · intro h
        split at h
        · next h3 =>
            obtain ⟨r, hr, hp⟩ := List.countP_pos_iff.mp h3
            refine ⟨r, hr, ?_⟩
            revert hp
            cases r.status <;> simp
        · simp at h
      · intro ⟨r, hr, hp⟩
        rw [if_pos]
        apply List.countP_pos_iff.mpr
        exact ⟨r, hr, by simp [hp.1, hp.2]⟩

/-- C4: for a RUNNING ingestion job with at least one outbox row, the
finalizer leaves the job RUNNING while any row is PENDING or RUNNING or
FAILED below the max-attempt ceiling; otherwise it finalizes to
PARTIAL_FAILED exactly when a FAILED row at or above the ceiling remains,
and to SUCCEEDED otherwise. -/
theorem finalizeJobDecision_correct (maxAttempts : Nat)
    (rows : List VectorOutboxRow) (hrows : rows ≠ []) :
    (finalizeJobDecision maxAttempts rows = JobStatus.RUNNING ↔
      (∃ r ∈ rows, r.status = OutboxStatus.PENDING ∨
        r.status = OutboxStatus.RUNNING) ∨
      (∃ r ∈ rows, r.status = OutboxStatus.FAILED ∧
        r.attemptCount < maxAttempts)) ∧
    (finalizeJobDecision maxAttempts rows = JobStatus.PARTIAL_FAILED ↔
      finalizeJobDecision maxAttempts rows ≠ JobStatus.RUNNING ∧
      ∃ r ∈ rows, r.status = OutboxStatus.FAILED ∧
        maxAttempts ≤ r.attemptCount) ∧
    (finalizeJobDecision maxAttempts rows = JobStatus.SUCCEEDED ↔
      finalizeJobDecision maxAttempts rows ≠ JobStatus.RUNNING ∧
      ¬ ∃ r ∈ rows, r.status = OutboxStatus.FAILED ∧
        maxAttempts ≤ r.attemptCount) := by
  refine ⟨finalizeJobDecision_eq_RUNNING maxAttempts rows, ?_, ?_⟩
  · constructor
    · intro h
      have hnr : finalizeJobDecision maxAttempts rows ≠ JobStatus.RUNNING := by
        rw [h]
        exact fun hc => JobStatus.noConfusion hc
      exact ⟨hnr, (finalizeJobDecision_eq_PARTIAL maxAttempts rows hnr).mp h⟩
    · intro ⟨hnr, hex⟩
      exact (finalizeJobDecision_eq_PARTIAL maxAttempts rows hnr).mpr hex
  · constructor
    · intro h
      have hnr : finalizeJobDecision maxAttempts rows ≠ JobStatus.RUNNING := by
        rw [h]
        exact fun hc => JobStatus.noConfusion hc
      refine ⟨hnr, fun hex => ?_⟩
      have hp := (finalizeJobDecision_eq_PARTIAL maxAttempts rows hnr).mpr hex
      rw [h] at hp
      exact JobStatus.noConfusion hp
    · intro ⟨hnr, hnex⟩
      cases hd : finalizeJobDecision maxAttempts rows with
      | RUNNING => exact absurd hd hnr
      | SUCCEEDED => rfl
      | PARTIAL_FAILED =>
          exact absurd ((finalizeJobDecision_eq_PARTIAL maxAttempts rows hnr).mp hd) hnex

/-- C4 witness: one FAILED row at the ceiling and one SUCCEEDED row:
the job is not left RUNNING and finalizes to PARTIAL_FAILED. -/
theorem finalizeJobDecision_correct_witness :
    (finalizeJobDecision 5 [⟨OutboxStatus.FAILED, 5⟩, ⟨OutboxStatus.SUCCEEDED, 0⟩] =
        JobStatus.RUNNING ↔
      (∃ r ∈ [VectorOutboxRow.mk OutboxStatus.FAILED 5,
              VectorOutboxRow.mk OutboxStatus.SUCCEEDED 0],
        r.status = OutboxStatus.PENDING ∨ r.status = OutboxStatus.RUNNING) ∨
      (∃ r ∈ [VectorOutboxRow.mk OutboxStatus.FAILED 5,
              VectorOutboxRow.mk OutboxStatus.SUCCEEDED 0],
        r.status = OutboxStatus.FAILED ∧ r.attemptCount < 5)) ∧
    (finalizeJobDecision 5 [⟨OutboxStatus.FAILED, 5⟩, ⟨OutboxStatus.SUCCEEDED, 0⟩] =
        JobStatus.PARTIAL_FAILED ↔
      finalizeJobDecision 5 [⟨OutboxStatus.FAILED, 5⟩, ⟨OutboxStatus.SUCCEEDED, 0⟩] ≠
        JobStatus.RUNNING ∧
      ∃ r ∈ [VectorOutboxRow.mk OutboxStatus.FAILED 5,
             VectorOutboxRow.mk OutboxStatus.SUCCEEDED 0],
        r.status = OutboxStatus.FAILED ∧ 5 ≤ r.attemptCount) ∧
    (finalizeJobDecision 5 [⟨OutboxStatus.FAILED, 5⟩, ⟨OutboxStatus.SUCCEEDED, 0⟩] =
        JobStatus.SUCCEEDED ↔
      finalizeJobDecision 5 [⟨OutboxStatus.FAILED, 5⟩, ⟨OutboxStatus.SUCCEEDED, 0⟩] ≠
        JobStatus.RUNNING ∧
      ¬ ∃ r ∈ [VectorOutboxRow.mk OutboxStatus.FAILED 5,
               VectorOutboxRow.mk OutboxStatus.SUCCEEDED 0],
        r.status = OutboxStatus.FAILED ∧ 5 ≤ r.attemptCount) :=
  finalizeJobDecision_correct 5
    [⟨OutboxStatus.FAILED, 5⟩, ⟨OutboxStatus.SUCCEEDED, 0⟩] (by decide)

theorem sorted_lt_of_sorted_le_nodup (l : List PdfPage)
    (hs : List.Sorted (fun a b : PdfPage => a.pageNo ≤ b.pageNo) l)
    (hn : (l.map PdfPage.pageNo).Nodup) :
    List.Sorted (fun a b : PdfPage => a.pageNo < b.pageNo) l := by
  have hne : l.Pairwise (fun a b : PdfPage => a.pageNo ≠ b.pageNo) := by
    rw [List.Nodup, List.pairwise_map] at hn
    exact hn
  exact (hs.and hne).imp (fun h => lt_of_le_of_ne h.1 h.2)

/-- C8: the PDF source revision does not depend on the input order of the
pages when the page numbers are pairwise distinct. -/
theorem computePdfSourceRevision_order_independent (hash : String → String)
    (A B : List PdfPage) (hperm : A.Perm B)
    (hnodup : (A.map PdfPage.pageNo).Nodup) :
    computePdfSourceRevision hash A = computePdfSourceRevision hash B := by
  have hpermA : (sortPagesByNo A).Perm A := List.perm_insertionSort _ _
  have hpermB : (sortPagesByNo B).Perm B := List.perm_insertionSort _ _
  have hnA : ((sortPagesByNo A).map PdfPage.pageNo).Nodup :=
    (hpermA.map PdfPage.pageNo).nodup_iff.mpr hnodup
  have hnB : ((sortPagesByNo B).map PdfPage.pageNo).Nodup :=
    (hpermB.map PdfPage.pageNo).nodup_iff.mpr
      ((hperm.map PdfPage.pageNo).nodup_iff.mp hnodup)
  have hsort : sortPagesByNo A = sortPagesByNo B := by
    apply List.eq_of_perm_of_sorted
      (r := fun a b : PdfPage => a.pageNo < b.pageNo)
    · exact hpermA.trans (hperm.trans hpermB.symm)
    · exact sorted_lt_of_sorted_le_nodup _ (List.sorted_insertionSort _ _) hnA
    · exact sorted_lt_of_sorted_le_nodup _ (List.sorted_insertionSort _ _) hnB
  unfold computePdfSourceRevision
  rw [hsort]

/-- C8 witness: the end-to-end scenario of the spec, two orderings of the
same two pages. -/
theorem computePdfSourceRevision_order_independent_witness :
    computePdfSourceRevision (fun s => s) [⟨2, "Beta"⟩, ⟨1, "Alpha"⟩] =
      computePdfSourceRevision (fun s => s) [⟨1, "Alpha"⟩, ⟨2, "Beta"⟩] :=
  computePdfSourceRevision_order_independent (fun s => s)
    [⟨2, "Beta"⟩, ⟨1, "Alpha"⟩] [⟨1, "Alpha"⟩, ⟨2, "Beta"⟩]
    (by decide) (by decide)

/-- C3: staging byte-identical content again, once the recorded current
revision equals the newly computed revision, enqueues zero DELETE outbox
entries, and the UPSERT entries carry exactly the chunk ids of the first
run (the ids are content-derived, so they collide and the duplicate-skip
logic makes the re-ingestion a no-op). -/
theorem stageTextSource_reingest_idempotent (hash : String → String)
    (sourceId : String) (content : List Char) (prior1 : Option String)
    (active1 active2 : List String) (r1 : StageResult)
    (h1 : stageTextSource hash sourceId content prior1 active1 = Except.ok r1) :
    stageTextSource hash sourceId content (some r1.sourceRevision) active2 =
      Except.ok { sourceRevision := r1.sourceRevision, deleteChunkIds := [],
                  upsertChunkIds := r1.upsertChunkIds } := by
  unfold stageTextSource at h1 ⊢
  generalize chunkTextWithOffsets (canonicalizeText content) CHUNK_SIZE CHUNK_OVERLAP = res at h1 ⊢
  cases res with
  | error e =>
      exact absurd h1 (by simp)
  | ok chunks =>
      rw [Except.ok.injEq] at h1
      subst h1
      simp

set_option maxHeartbeats 2000000 in
/-- C3 witness: the deterministic end-to-end scenario of the spec, staged a
second time against the revision recorded by the first run. -/
theorem stageTextSource_reingest_idempotent_witness :
    stageTextSource (fun _ => "h") "src-1"
        ("Hello world. This is a deterministic test.".toList) (some "h") [] =
      Except.ok { sourceRevision := "h", deleteChunkIds := [],
                  upsertChunkIds := ["h"] } :=
  stageTextSource_reingest_idempotent (fun _ => "h") "src-1"
    ("Hello world. This is a deterministic test.".toList) none [] []
    { sourceRevision := "h", deleteChunkIds := [], upsertChunkIds := ["h"] }
    (by unfold stageTextSource chunkTextWithOffsets chunkLoop; decide)

/-- C5 counterexample: with a non-empty candidate list, a failed rerank
LLM invocation is rethrown by the catch block of `ChatService.rerank`
(`throw err instanceof Error ...`) instead of falling back to the original
similarity order, so the rerank step does propagate the error. -/
theorem rerank_llm_error_counterexample :
    rerank (Except.error "LLM unavailable") [sampleCtx] =
      Except.error "LLM unavailable" := by
  rfl

/-- C5 (amended): on failure to parse a rank list out of a successful LLM
response the rerank step returns the first five candidates in the original
similarity order, while a rerank LLM invocation failure is rethrown and
propagates to the caller. -/
theorem rerank_error_handling (docs : List RankedContext) (e : String)
    (text : List Char) (hdocs : docs ≠ [])
    (hparse : parseRankIds text docs.length = []) :
    rerank (Except.error e) docs = Except.error e ∧
      rerank (Except.ok text) docs = Except.ok (docs.take 5) := by
  have hne : docs.isEmpty = false := by
    cases docs with
    | nil => exact absurd rfl hdocs
    | cons a l => rfl
  refine ⟨?_, ?_⟩ <;> unfold rerank <;> simp [hne, hparse]

/-- C5 witness: a concrete LLM failure propagating and a concrete
unparsable response falling back to the original order. -/
theorem rerank_error_handling_witness :
    rerank (Except.error "boom") [sampleCtx] = Except.error "boom" ∧
      rerank (Except.ok ("keine Rangliste".toList)) [sampleCtx] =
        Except.ok ([sampleCtx].take 5) :=
  rerank_error_handling [sampleCtx] "boom" ("keine Rangliste".toList)
    (by decide) (by decide)

/-- C6: with fewer hydrated, reranked candidates than the configured
minimum, the chat service returns unknown=true and never reaches the
answer-generation call. -/
theorem handleMessage_refusal_gating (minH minC maxChars : Nat)
    (debugId : String) (reranked : List RankedContext)
    (parsed : Option RagJsonAnswer) (h : reranked.length < minH) :
    (handleMessageAfterRerank minH minC maxChars debugId reranked
        parsed).1.unknown = true ∧
      (handleMessageAfterRerank minH minC maxChars debugId reranked
        parsed).2 = false := by
  have hlen : (reranked.take 5).length < minH := by
    rw [List.length_take]
    omega
  have hg : (applyHardGate minH (reranked.take 5).length).1 = false := by
    unfold applyHardGate
    rw [if_pos hlen]
  unfold handleMessageAfterRerank
  rw [if_pos (Or.inr hg)]
  exact ⟨rfl, rfl⟩

/-- C6 witness: one hydrated candidate against a configured minimum of
three. -/
theorem handleMessage_refusal_gating_witness :
    (handleMessageAfterRerank 3 1 4000 "debug-1" [sampleCtx]
        none).1.unknown = true ∧
      (handleMessageAfterRerank 3 1 4000 "debug-1" [sampleCtx]
        none).2 = false :=
  handleMessage_refusal_gating 3 1 4000 "debug-1" [sampleCtx] none (by decide)

theorem gateClaims_ok_allowed (allowed : List String) :
    ∀ (claims : List RagClaim) (idx : Nat) (u : Unit),
      gateClaims allowed idx claims = Except.ok u →
      ∀ c ∈ claims, ∀ id ∈ c.supporting_chunk_ids,
        allowed.contains id = true := by
  intro claims
  induction claims with
  | nil =>
      intro idx u h c hc
      simp at hc
  | cons c0 rest ih =>
      intro idx u h c hc id hid
      unfold gateClaims at h
      split at h
      · exact absurd h (by simp)
      · split at h
        · rcases List.mem_cons.mp hc with hceq | hcr
          · subst hceq
            rename_i hall
            exact List.all_eq_true.mp hall id hid
          · exact ih (idx + 1) u h c hcr id hid
        · exact absurd h (by simp)

theorem validate_error_of_bad_id (a : RagJsonAnswer) (allowed : List String)
    (c : RagClaim) (hc : c ∈ a.claims) (badId : String)
    (hbad : badId ∈ c.supporting_chunk_ids)
    (hnot : allowed.contains badId = false) :
    ∃ reason, validateAndGateJsonAnswer (some a) allowed =
      Except.error reason := by
  unfold validateAndGateJsonAnswer
  dsimp only
  by_cases hschema : ragJsonAnswerSchemaOk a = true
  · rw [if_pos hschema]
    by_cases hunk : a.unknown = true
    · rw [if_pos hunk]
      exact ⟨_, rfl⟩
    · rw [if_neg hunk]
      cases hg : gateClaims allowed 0 a.claims with
      | error r => exact ⟨r, rfl⟩
      | ok u =>
          have hcontains :=
            gateClaims_ok_allowed allowed a.claims 0 u hg c hc badId hbad
          rw [hnot] at hcontains
          exact absurd hcontains (by simp)
  · rw [if_neg hschema]
    exact ⟨_, rfl⟩

/-- C7: a parsed answer in which some claim cites an id outside the
assembled whitelist is rejected by the validation step, and the chat
service returns an unknown=true refusal instead of the answer. -/
theorem citation_whitelist_enforced (minH minC maxChars : Nat)
    (debugId : String) (reranked : List RankedContext) (a : RagJsonAnswer)
    (c : RagClaim) (hc : c ∈ a.claims) (badId : String)
    (hbad : badId ∈ c.supporting_chunk_ids)
    (hnot : (buildContextString maxChars
      (reranked.take 5)).allowedChunkIds.contains badId = false) :
    (∃ reason, validateAndGateJsonAnswer (some a)
        (buildContextString maxChars (reranked.take 5)).allowedChunkIds =
        Except.error reason) ∧
      (handleMessageAfterRerank minH minC maxChars debugId reranked
        (some a)).1.unknown = true := by
  obtain ⟨reason, hr⟩ := validate_error_of_bad_id a _ c hc badId hbad hnot
  refine ⟨⟨reason, hr⟩, ?_⟩
  unfold handleMessageAfterRerank
  by_cases hcond : (reranked.take 5).isEmpty = true ∨
      (applyHardGate minH (reranked.take 5).length).1 = false
  · rw [if_pos hcond]
    rfl
  · rw [if_neg hcond, hr]
    rfl

/-- C7 witness: a single whitelisted candidate and an answer citing a
foreign id. -/
theorem citation_whitelist_enforced_witness :
    (∃ reason, validateAndGateJsonAnswer
        (some { claims := [{ text := "A", supporting_chunk_ids := ["zzz"] }],
                unknown := false, reason := none })
        (buildContextString 4000 ([sampleCtx].take 5)).allowedChunkIds =
        Except.error reason) ∧
      (handleMessageAfterRerank 1 1 4000 "debug-2" [sampleCtx]
        (some { claims := [{ text := "A", supporting_chunk_ids := ["zzz"] }],
                unknown := false, reason := none })).1.unknown = true :=
  citation_whitelist_enforced 1 1 4000 "debug-2" [sampleCtx]
    { claims := [{ text := "A", supporting_chunk_ids := ["zzz"] }],
      unknown := false, reason := none }
    { text := "A", supporting_chunk_ids := ["zzz"] } (by decide) "zzz"
    (by decide) (by decide)

theorem buildContextLoop_allowed_mem (maxChars : Nat) :
    ∀ (contexts : List RankedContext) (used i : Nat) (id : String),
      id ∈ (buildContextLoop maxChars used i contexts).allowedChunkIds →
      ∃ ctx ∈ contexts, ctxChunkId ctx = id := by
  intro contexts
  induction contexts with
  | nil =>
      intro used i id h
      simp [buildContextLoop] at h
  | cons ctx rest ih =>
      intro used i id h
      unfold buildContextLoop at h
      split at h
      · simp at h
      · split at h
        · simp at h
        · rcases List.mem_cons.mp h with heq | hmem
          · exact ⟨ctx, List.mem_cons_self ctx rest, heq.symm⟩
          · obtain ⟨c2, hc2, hid⟩ := ih _ _ id hmem
            exact ⟨c2, List.mem_cons_of_mem ctx hc2, hid⟩

theorem byChunkIdLookup_isSome (contexts : List RankedContext) (id : String)
    (h : ∃ ctx ∈ contexts, ctxChunkId ctx = id) :
    (byChunkIdLookup contexts id).isSome = true := by
  obtain ⟨ctx, hmem, hid⟩ := h
  unfold byChunkIdLookup
  rw [List.getLast?_isSome]
  intro hnil
  have hf : ctx ∈ contexts.filter (fun c => ctxChunkId c == id) := by
    rw [List.mem_filter]
    exact ⟨hmem, by simp [hid]⟩
  rw [hnil] at hf
  simp at hf

theorem filterMap_length_all_some {α β : Type} (f : α → Option β) :
    ∀ l : List α, (∀ x ∈ l, (f x).isSome = true) →
      (l.filterMap f).length = l.length := by
  intro l
  induction l with
  | nil =>
      intro _
      rfl
  | cons a l ih =>
      intro h
      rw [List.filterMap_cons]
      cases hf : f a with
      | none => exact absurd (h a (List.mem_cons_self a l)) (by simp [hf])
      | some b =>
          simp only [List.length_cons]
          rw [ih (fun x hx => h x (List.mem_cons_of_mem a hx))]

theorem dedupSeen_subset (x : String) :
    ∀ (l seen : List String), x ∈ dedupSeen seen l → x ∈ l := by
  intro l
  induction l with
  | nil =>
      intro seen h
      simp [dedupSeen] at h
  | cons a l ih =>
      intro seen h
      unfold dedupSeen at h
      split at h
      · exact List.mem_cons_of_mem a (ih _ h)
      · rcases List.mem_cons.mp h with heq | hmem
        · exact heq ▸ List.mem_cons_self a l
        · exact List.mem_cons_of_mem a (ih _ hmem)

/-- C10: the hydration-mismatch refusal branch of `buildVerifiedResponse`
is unreachable under the validation precondition: when every claim cites
only ids from the whitelist that `buildContextString` assembled from the
same hydrated context list, the number of resolved sources equals the size
of the referenced-id set, and a claim set of at least the configured
minimum size yields unknown=false. -/
theorem buildVerifiedResponse_consistent (minC maxChars : Nat)
    (debugId : String) (contextTruncated : Bool)
    (contexts : List RankedContext) (claims : List RagClaim)
    (hsub : ∀ c ∈ claims, ∀ id ∈ c.supporting_chunk_ids,
      id ∈ (buildContextString maxChars contexts).allowedChunkIds)
    (hn : minC ≤ claims.length) :
    (buildSourcesFromClaims contexts claims).length =
        (claimedChunkIds claims).length ∧
      (buildVerifiedResponse minC debugId contextTruncated contexts
        claims).unknown = false := by
  have hall : ∀ id ∈ claimedChunkIds claims,
      ((byChunkIdLookup contexts id).map
        (fun ctx => mkRagSource id ctx)).isSome = true := by
    intro id hid
    have hidj : id ∈ (claims.map (fun c => c.supporting_chunk_ids)).flatten :=
      dedupSeen_subset id _ [] hid
    obtain ⟨l, hl, hidl⟩ := List.mem_flatten.mp hidj
    obtain ⟨c, hcmem, hceq⟩ := List.mem_map.mp hl
    have hidc : id ∈ c.supporting_chunk_ids := hceq ▸ hidl
    obtain ⟨ctx, hctx, hcid⟩ :=
      buildContextLoop_allowed_mem maxChars contexts 0 0 id
        (hsub c hcmem id hidc)
    have hsome := byChunkIdLookup_isSome contexts id ⟨ctx, hctx, hcid⟩
    cases hb : byChunkIdLookup contexts id with
    | none =>
        rw [hb] at hsome
        exact absurd hsome (by simp)
    | some v => rfl
  have hlen : (buildSourcesFromClaims contexts claims).length =
      (claimedChunkIds claims).length := by
    unfold buildSourcesFromClaims sortSourcesByChunkId
    rw [(List.perm_insertionSort _ _).length_eq]
    exact filterMap_length_all_some _ _ hall
  refine ⟨hlen, ?_⟩
  unfold buildVerifiedResponse
  rw [if_neg (by omega)]
  rw [if_neg (fun hne => hne hlen)]

/-- C10 witness: one hydrated context and one claim citing it. -/
theorem buildVerifiedResponse_consistent_witness :
    (buildSourcesFromClaims [sampleCtx]
        [{ text := "A", supporting_chunk_ids := ["c1"] }]).length =
        (claimedChunkIds [{ text := "A", supporting_chunk_ids := ["c1"] }]).length ∧
      (buildVerifiedResponse 1 "debug-3" false [sampleCtx]
        [{ text := "A", supporting_chunk_ids := ["c1"] }]).unknown = false :=
  buildVerifiedResponse_consistent 1 4000 "debug-3" false [sampleCtx]
    [{ text := "A", supporting_chunk_ids := ["c1"] }] (by decide) (by decide)

/-- C9 witness: concrete strict advance, in a stalling configuration where
the overlap exceeds the cut position. -/
theorem chunk_cursor_strictly_advances_witness :
    0 < chunkNext (chunkEnd ("abc".toList) 100 0) 200 0 ∧
      ("abc".toList).length - chunkNext (chunkEnd ("abc".toList) 100 0) 200 0 <
        ("abc".toList).length - 0 :=
  chunk_cursor_strictly_advances ("abc".toList) 100 200 0 (by decide)

end ChatbotStudio
